
import Mathlib

/-!
# my_wc: a three-thread word / line / unique-word counter

A shallow embedding of `src/my_wc.c` and theorems about it.

Modelling conventions
* The input file is a list of bytes; every worker has its own stream (`FILE`) on it,
  a read position into that list.
* `int` arithmetic that can overflow (the region computation of `init_thread_args`)
  wraps modulo `2^32`; `/` on `int` truncates toward zero.
* Undefined behaviour of the C program is an explicit `Fault`: a `%s` conversion that
  stores more than the 256 bytes of `buffer`, and an index outside the
  `MAX_UNIQ_WORDS` slots of `uniq_wlist`.
* A slot of `uniq_wlist.words` (256 bytes, zero-filled when empty) is the list of the
  bytes written to it; the bytes after them are zero.
* In word and line mode the workers share no state, so every worker is run on its own
  `thread_args`.  In unique-word mode the workers are run one after another (the order is
  a parameter); a separate step function models interleaved execution.
-/

namespace MyWc

/-! ## Constants and machine arithmetic -/

abbrev Byte := Fin 256

def NUM_THREADS : Nat := 3

def MAX_UNIQ_WORDS : Nat := 10000

/-- Size in bytes of every `buffer` and of every slot of `uniq_wlist.words`
(`malloc(sizeof(char[256]))`). -/
def BUF_SIZE : Nat := 256

def INT_MAX : Int := 2147483647

def EOF : Int := -1

/-- Result of an `int` operation: the mathematical value when it is representable, and
otherwise its reduction into `[-2^31, 2^31)`. -/
def wrap_int (x : Int) : Int :=
  if -2147483648 ≤ x ∧ x ≤ 2147483647 then x
  else (x + 2147483648) % 4294967296 - 2147483648

/-- The C library `ceil`, applied to an `int` that was converted to `double`: every
`int` is exactly representable, so the value comes back unchanged. -/
def c_ceil (x : Int) : Int := x

/-- Conversion of an `int` to plain `char` (`buffer[0] = fgetc(fp)`), read back as an
`int`.  Whether plain `char` is signed is a property of the platform. -/
def to_char (signed_char : Bool) (c : Int) : Int :=
  let m := c % 256
  if signed_char && decide (128 ≤ m) then m - 256 else m

/-- The C-locale `isspace`: space, `\t`, `\n`, `\v`, `\f`, `\r`. -/
def isspace (b : Byte) : Bool := decide (b.val = 32) || (decide (9 ≤ b.val) && decide (b.val ≤ 13))

/-- A byte that belongs to a token. -/
def nonspace (b : Byte) : Bool := !isspace b

/-! ## Faults -/

inductive Fault where
  /-- `fscanf("%s")` wrote past the end of the 256-byte `buffer`. -/
  | buffer_overrun
  /-- An access to `uniq_wlist.words[i]` or `uniq_wlist.ind_word_count[i]` with
  `i ≥ MAX_UNIQ_WORDS`. -/
  | out_of_bounds
  /-- A `pthread_mutex_lock` on a mutex that a finished worker still holds. -/
  | deadlock
  /-- The iteration budget of a loop of the model ran out. -/
  | fuel
  deriving DecidableEq, Repr

deriving instance DecidableEq for Except

/-! ## Streams -/

structure FILE where
  content : List Byte
  pos : Nat
  deriving DecidableEq, Repr

def fopen (content : List Byte) : FILE := { content := content, pos := 0 }

/-- The call `fseek(fp, offset, SEEK_SET)`: a negative offset fails and leaves the
position where it was. -/
def fseek (fp : FILE) (offset : Int) : FILE :=
  if offset < 0 then fp else { fp with pos := offset.toNat }

def ftell (fp : FILE) : Int := (fp.pos : Int)

/-- One `fgetc`: the next byte as a non-negative `int`, or `EOF`. -/
def fgetc (fp : FILE) : Int × FILE :=
  match fp.content[fp.pos]? with
  | some b => ((b.val : Int), { fp with pos := fp.pos + 1 })
  | none => (EOF, fp)

/-- The call `fscanf(fp, "%s", buffer)`: skip white space, then store the following run
of non-white-space bytes and a terminating NUL in `buffer`.  Returns the return value
(`1` or `EOF`), the bytes stored in front of the NUL, and the stream.  The byte that
ends the token is not consumed. -/
def fscanf_s (fp : FILE) (buffer : List Byte) : Except Fault (Int × List Byte × FILE) :=
  let input := fp.content.drop fp.pos
  let skipped := (input.takeWhile isspace).length
  let rest := input.dropWhile isspace
  if rest.isEmpty then
    .ok (EOF, buffer, { fp with pos := max fp.pos fp.content.length })
  else
    let tok := rest.takeWhile nonspace
    if BUF_SIZE ≤ tok.length then .error .buffer_overrun
    else .ok (1, tok, { fp with pos := fp.pos + skipped + tok.length })

/-! ## C strings -/

/-- The C string held by a char array: the bytes in front of the first NUL. -/
def c_str (s : List Byte) : List Byte := s.takeWhile (fun b => decide (b ≠ 0))

def strlen (s : List Byte) : Nat := (c_str s).length

/-- Whether `strcmp(a, b)` is `0`. -/
def strcmp_zero (a b : List Byte) : Bool := decide (c_str a = c_str b)

/-- The call `memmove(dst, src, n)`: the first `n` bytes of `dst` are replaced. -/
def memmove (dst src : List Byte) (n : Nat) : List Byte := src.take n ++ dst.drop n

/-- The byte `*s` of a zero-filled char array. -/
def first_char (s : List Byte) : Byte := s.headD 0

/-! ## Program state -/

/-- The global `uniq_wlist`: two arrays of `MAX_UNIQ_WORDS` elements, as maps from the
index; every access checks the index against `MAX_UNIQ_WORDS` first. -/
structure uniq_words where
  words : Nat → List Byte
  ind_word_count : Nat → Int

/-- The state the workers share: the table and whether `mutex_var` is locked. -/
structure Shared where
  uniq_wlist : uniq_words
  mutex_var : Bool

structure thread_args where
  thread_num : Nat
  region : Int
  start_pos : Int
  word_count : Nat
  line_count : Nat
  fp : FILE
  buffer : List Byte
  /-- Ghost field, not in the C struct: the offsets of the first bytes of the tokens
  for which the body of the worker's loop has run. -/
  owned : List Nat

/-- How the body of a loop ends: it falls through to the loop test, or it executes
`return`. -/
inductive Flow (σ : Type) where
  | next (s : σ)
  | ret (s : σ)

/-! ## init_thread_args -/

/-- The value of `region` that `init_thread_args` stores for worker `i`:
`ceil(((i+1)*size)/NUM_THREADS)`. -/
def region_of (size : Int) (i : Nat) : Int :=
  c_ceil (Int.tdiv (wrap_int (((i : Int) + 1) * size)) (NUM_THREADS : Int))

/-- The value of `start_pos` that `init_thread_args` stores for worker `i`:
`ceil((i*size)/NUM_THREADS)`. -/
def start_pos_of (size : Int) (i : Nat) : Int :=
  c_ceil (Int.tdiv (wrap_int ((i : Int) * size)) (NUM_THREADS : Int))

/-- The `int size` of `init_thread_args`: `ftell` at the end of the file. -/
def file_size (content : List Byte) : Int := wrap_int (content.length : Int)

/-- The table after the second loop of `init_thread_args`; the word slots are taken to be
zero-filled. -/
def init_uniq_wlist : uniq_words :=
  { words := fun _ => [],
    ind_word_count := fun _ => -1 }

def init_shared : Shared := { uniq_wlist := init_uniq_wlist, mutex_var := false }

/-- Worker `i` as `init_thread_args` and the creation loop of `main` leave it. -/
def init_thread (content : List Byte) (i : Nat) : thread_args :=
  { thread_num := i,
    region := region_of (file_size content) i,
    start_pos := start_pos_of (file_size content) i,
    word_count := 0,
    line_count := 0,
    fp := fopen content,
    buffer := [],
    owned := [] }

def init_thread_args (content : List Byte) : List thread_args :=
  (List.range NUM_THREADS).map (init_thread content)

/-! ## The token loop shared by count_words and unique_word_count -/

/-- The loop `while (ftell(fp) <= region) { if (fscanf(fp, "%s", buffer) == EOF) break; body }`
of `count_words` and `unique_word_count`, whose text differs only in the body. -/
def token_loop {σ : Type} (body : List Byte → σ → Except Fault (Flow σ)) (region : Int) :
    Nat → FILE → List Byte → σ → List Nat → Except Fault (FILE × List Byte × σ × List Nat)
  | 0, _, _, _, _ => .error .fuel
  | fuel + 1, fp, buffer, s, owned =>
    if ftell fp ≤ region then
      match fscanf_s fp buffer with
      | .error e => .error e
      | .ok (rc, buffer1, fp1) =>
        if rc = EOF then .ok (fp1, buffer1, s, owned)
        else
          match body buffer1 s with
          | .error e => .error e
          | .ok (.ret s1) => .ok (fp1, buffer1, s1, owned ++ [fp1.pos - buffer1.length])
          | .ok (.next s1) =>
            token_loop body region fuel fp1 buffer1 s1 (owned ++ [fp1.pos - buffer1.length])
    else .ok (fp, buffer, s, owned)

/-- The statements in front of the token loop: `fseek` to `start_pos` and, for every
worker but the first, one `fscanf` whose result is ignored. -/
def hand_off (t : thread_args) : Except Fault (FILE × List Byte) :=
  let fp := fseek t.fp t.start_pos
  if t.thread_num ≠ 0 then
    match fscanf_s fp t.buffer with
    | .error e => .error e
    | .ok (_, buffer1, fp1) => .ok (fp1, buffer1)
  else .ok (fp, t.buffer)

/-- Iterations that always suffice for a loop that consumes at least one byte per
iteration. -/
def loop_fuel (fp : FILE) : Nat := fp.content.length + 1

/-! ## count_words -/

def count_words (t : thread_args) : Except Fault thread_args :=
  match hand_off t with
  | .error e => .error e
  | .ok (fp, buffer) =>
    match token_loop (fun _ wc => .ok (.next (wc + 1))) t.region (loop_fuel fp) fp buffer
        t.word_count t.owned with
    | .error e => .error e
    | .ok (fp1, buffer1, wc, owned) =>
      .ok { t with fp := fp1, buffer := buffer1, word_count := wc, owned := owned }

/-! ## count_lines -/

/-- The loop of `count_lines`.  The byte is stored in `buffer[0]`, a plain `char`, before
it is compared with `EOF` and with the newline; `buffer` is not read afterwards, so the
model keeps only the stored value `c`. -/
def count_lines_loop (signed_char : Bool) (region : Int) :
    Nat → FILE → Nat → Except Fault (FILE × Nat)
  | 0, _, _ => .error .fuel
  | fuel + 1, fp, lc =>
    if ftell fp < region then
      let r := fgetc fp
      let c := to_char signed_char r.1
      if c = EOF then .ok (r.2, lc)
      else if c = 10 then count_lines_loop signed_char region fuel r.2 (lc + 1)
      else count_lines_loop signed_char region fuel r.2 lc
    else .ok (fp, lc)

def count_lines (signed_char : Bool) (t : thread_args) : Except Fault thread_args :=
  let fp := fseek t.fp t.start_pos
  match count_lines_loop signed_char t.region (loop_fuel fp) fp t.line_count with
  | .error e => .error e
  | .ok (fp1, lc) => .ok { t with fp := fp1, line_count := lc }

/-! ## unique_word_count -/

/-- The `for` loop of `unique_word_count`: walk the slots until the first empty one;
on every slot equal to `buffer` lock, increment its count, set `check`, unlock.
Returns the final `i`. -/
def scan_words (buffer : List Byte) :
    Nat → Nat → Shared → Bool → Except Fault (Nat × Shared × Bool)
  | 0, _, _, _ => .error .fuel
  | fuel + 1, i, g, check =>
    if MAX_UNIQ_WORDS ≤ i then .error .out_of_bounds
    else if first_char (g.uniq_wlist.words i) ≠ 0 then
      if strcmp_zero buffer (g.uniq_wlist.words i) then
        if g.mutex_var then .error .deadlock
        else
          scan_words buffer fuel (i + 1)
            { g with uniq_wlist :=
                { g.uniq_wlist with
                  ind_word_count :=
                    Function.update g.uniq_wlist.ind_word_count i
                      (g.uniq_wlist.ind_word_count i + 1) } }
            true
      else scan_words buffer fuel (i + 1) g check
    else .ok (i, g, check)

/-- The block between the second `pthread_mutex_lock` and its unlock: reset `check`, or
insert the token at slot `i`; when `i > MAX_UNIQ_WORDS` the worker returns, and the
mutex stays locked. -/
def insert_or_skip (buffer : List Byte) (i : Nat) (g : Shared) (check : Bool) :
    Except Fault (Flow (Shared × Bool)) :=
  if g.mutex_var then .error .deadlock
  else if check then .ok (.next (g, false))
  else if i > MAX_UNIQ_WORDS then .ok (.ret ({ g with mutex_var := true }, check))
  else if MAX_UNIQ_WORDS ≤ i then .error .out_of_bounds
  else
    .ok (.next
      ({ g with uniq_wlist :=
          { words :=
              Function.update g.uniq_wlist.words i
                (memmove (g.uniq_wlist.words i) buffer (strlen buffer)),
            ind_word_count := Function.update g.uniq_wlist.ind_word_count i 1 } },
       check))

/-- The body of the token loop of `unique_word_count`: record the token in `buffer`. -/
def record (buffer : List Byte) (s : Shared × Bool) : Except Fault (Flow (Shared × Bool)) :=
  match scan_words buffer (MAX_UNIQ_WORDS + 1) 0 s.1 s.2 with
  | .error e => .error e
  | .ok (i, g, check) => insert_or_skip buffer i g check

def unique_word_count (t : thread_args) (g : Shared) : Except Fault (thread_args × Shared) :=
  match hand_off t with
  | .error e => .error e
  | .ok (fp, buffer) =>
    match token_loop record t.region (loop_fuel fp) fp buffer (g, false) t.owned with
    | .error e => .error e
    | .ok (fp1, buffer1, s, owned) =>
      .ok ({ t with fp := fp1, buffer := buffer1, owned := owned }, s.1)

/-! ## main -/

/-- Run a worker function on each `thread_args` of its own. -/
def run_workers (f : thread_args → Except Fault thread_args) :
    List thread_args → Except Fault (List thread_args)
  | [] => .ok []
  | t :: ts =>
    match f t with
    | .error e => .error e
    | .ok t1 =>
      match run_workers f ts with
      | .error e => .error e
      | .ok ts1 => .ok (t1 :: ts1)

/-- Word mode (`-w`): the value of `tot_wc` that `main` prints. -/
def main_words (content : List Byte) : Except Fault Nat :=
  match run_workers count_words (init_thread_args content) with
  | .error e => .error e
  | .ok ts => .ok (ts.map (fun t => t.word_count)).sum

/-- Line mode (`-l`): the value of `tot_lc` that `main` prints. -/
def main_lines (signed_char : Bool) (content : List Byte) : Except Fault Nat :=
  match run_workers (count_lines signed_char) (init_thread_args content) with
  | .error e => .error e
  | .ok ts => .ok (ts.map (fun t => t.line_count)).sum

/-- The bodies of the workers listed in `order`, run to completion one after another on
the shared state. -/
def run_unique (content : List Byte) : List Nat → Shared → Except Fault Shared
  | [], g => .ok g
  | k :: ks, g =>
    match unique_word_count (init_thread content k) g with
    | .error e => .error e
    | .ok (_, g1) => run_unique content ks g1

/-- The loop `for (i = 0; uniq_wlist.ind_word_count[i] != -1; i++) tot_uniq_wc++`
of `main`. -/
def count_entries (u : uniq_words) : Nat → Nat → Nat → Except Fault Nat
  | 0, _, _ => .error .fuel
  | fuel + 1, i, tot =>
    if MAX_UNIQ_WORDS ≤ i then .error .out_of_bounds
    else if u.ind_word_count i ≠ -1 then count_entries u fuel (i + 1) (tot + 1)
    else .ok tot

/-- Unique-word mode (`-u`) with the workers run in the given order: the value of
`tot_uniq_wc` that `main` prints. -/
def main_unique (order : List Nat) (content : List Byte) : Except Fault Nat :=
  match run_unique content order init_shared with
  | .error e => .error e
  | .ok g => count_entries g.uniq_wlist (MAX_UNIQ_WORDS + 1) 0 0

/-! ## Specification vocabulary -/

/-- Split at white space.  The first component is the run of token bytes at the front of
the list (empty when the list is empty or starts with white space); the second lists the
tokens after that run, each with the offset of its first byte, where the list itself
starts at offset `off`. -/
def tok_split (off : Nat) : List Byte → List Byte × List (Nat × List Byte)
  | [] => ([], [])
  | b :: bs =>
    if isspace b then
      ([], if (tok_split (off + 1) bs).1.isEmpty then (tok_split (off + 1) bs).2
           else (off + 1, (tok_split (off + 1) bs).1) :: (tok_split (off + 1) bs).2)
    else (b :: (tok_split (off + 1) bs).1, (tok_split (off + 1) bs).2)

/-- The tokens of a byte sequence that starts at offset `off`: the maximal runs of
non-white-space bytes, in order, each with the offset of its first byte. -/
def tokens_at (off : Nat) (l : List Byte) : List (Nat × List Byte) :=
  if (tok_split off l).1.isEmpty then (tok_split off l).2
  else (off, (tok_split off l).1) :: (tok_split off l).2

/-- The tokens of a file. -/
def tokens (content : List Byte) : List (List Byte) := (tokens_at 0 content).map Prod.snd

/-- The offsets of the first bytes of the tokens of a file. -/
def token_starts (content : List Byte) : List Nat := (tokens_at 0 content).map Prod.fst

/-- The number of distinct tokens of a file. -/
def distinct_tokens (content : List Byte) : Nat := (tokens content).dedup.length

/-- The number of newline bytes of a file. -/
def newline_count (content : List Byte) : Nat := content.count 10

/-- Every token of the file, with its terminating NUL, fits the 256-byte `buffer`. -/
def fits_buffer (content : List Byte) : Prop := ∀ t ∈ tokens content, t.length < BUF_SIZE

instance (content : List Byte) : Decidable (fits_buffer content) := by
  unfold fits_buffer; infer_instance

/-- The number of bytes that a `%s` conversion consumes from the input `l` when it finds a
token: the white space in front of the token and the token. -/
def scan_len (l : List Byte) : Nat :=
  (l.takeWhile isspace).length + ((l.dropWhile isspace).takeWhile nonspace).length

/-- The position of a stream after one `fscanf(fp, "%s", buffer)` issued at position `p`. -/
def scan_end (content : List Byte) (p : Nat) : Nat :=
  if ((content.drop p).dropWhile isspace).isEmpty then max p content.length
  else p + scan_len (content.drop p)

/-- The token loop on a given list of reads: the body is applied to the tokens of `reads`
in turn; `q` is the position of the stream when the loop ends without `return`. -/
def run_reads {σ : Type} (body : List Byte → σ → Except Fault (Flow σ)) (content : List Byte)
    (q : Nat) : List (Nat × List Byte) → List Byte → σ → List Nat →
    Except Fault (FILE × List Byte × σ × List Nat)
  | [], buffer, s, owned => .ok ({ content := content, pos := q }, buffer, s, owned)
  | r :: rs, _, s, owned =>
    match body r.2 s with
    | .error e => .error e
    | .ok (.ret s1) =>
      .ok ({ content := content, pos := r.1 + r.2.length }, r.2, s1, owned ++ [r.1])
    | .ok (.next s1) => run_reads body content q rs r.2 s1 (owned ++ [r.1])

/-- The boundary between the regions of workers `k - 1` and `k` as a natural number,
`k * size / NUM_THREADS`: the value of `start_pos_of` when no product overflows. -/
def bound (content : List Byte) (k : Nat) : Nat := k * content.length / NUM_THREADS

/-- The position at which the token loop of worker `k` starts: `0` for the first worker,
and the end of the hand-off read issued at `start_pos` for the others. -/
def loop_start (content : List Byte) (k : Nat) : Nat :=
  if k = 0 then 0 else scan_end content (bound content k)

/-- The layout of worker `k` in a run on `content`: what `init_thread_args` and the
creation loop of `main` store when no product overflows. -/
def laid_out (content : List Byte) (k : Nat) (t : thread_args) : Prop :=
  t.thread_num = k ∧ t.fp = { content := content, pos := 0 } ∧
    t.start_pos = (bound content k : Int) ∧ t.region = (bound content (k + 1) : Int)

/-- A token as a C string: not empty and without a NUL byte. -/
def c_token (w : List Byte) : Prop := w ≠ [] ∧ (0 : Byte) ∉ w

instance (w : List Byte) : Decidable (c_token w) := by
  unfold c_token; infer_instance

/-- The table holds the C strings `ws`: slot `i` holds `ws[i]` for `i < ws.length`, and
the other slots are empty. -/
def table_holds (u : uniq_words) (ws : List (List Byte)) : Prop :=
  ∀ i, i < MAX_UNIQ_WORDS → u.words i = ws.getD i []

/-- The invariant of a unique-word run on a file of C-string tokens `T`, after the tokens
`L` have been recorded: the table holds each of them once, in the first slots, with a
positive count, and the counts of the other slots are `-1`. -/
def recorded (T : List (List Byte)) (L : List (List Byte)) (g : Shared) : Prop :=
  g.mutex_var = false ∧ (∀ w ∈ L, w ∈ T) ∧
    ∃ ws : List (List Byte), table_holds g.uniq_wlist ws ∧ ws.Nodup ∧
      (∀ c ∈ ws, c_token c) ∧ (∀ c, c ∈ ws ↔ c ∈ L) ∧
      (∀ i, i < ws.length → 1 ≤ g.uniq_wlist.ind_word_count i) ∧
      (∀ i, ws.length ≤ i → g.uniq_wlist.ind_word_count i = -1)

/-- The invariant of a sequential unique-word run on arbitrary tokens, after the tokens `L`
have been recorded without a fault: the table holds pairwise distinct non-empty C strings
in its first slots, with positive counts; these are the non-empty C strings of the
recorded tokens; the count of the first free slot is `-1`, or `1` when a token that is the
empty C string has been recorded; the counts after it are `-1`; and the mutex is free. -/
def recorded_c_str (L : List (List Byte)) (g : Shared) : Prop :=
  g.mutex_var = false ∧
    ∃ ws : List (List Byte), table_holds g.uniq_wlist ws ∧ ws.Nodup ∧
      (∀ c ∈ ws, c_token c) ∧ (∀ c ∈ ws, ∃ w ∈ L, c_str w = c) ∧
      ws.length ≤ MAX_UNIQ_WORDS ∧
      (∀ i, i < ws.length → 1 ≤ g.uniq_wlist.ind_word_count i) ∧
      (∀ i, ws.length < i → g.uniq_wlist.ind_word_count i = -1) ∧
      (g.uniq_wlist.ind_word_count ws.length = -1 ∨
        (g.uniq_wlist.ind_word_count ws.length = 1 ∧ ∃ w ∈ L, c_str w = [])) ∧
      (∀ w ∈ L, c_str w = [] ∨ c_str w ∈ ws)

/-- The two-byte token number `i` of `cap_file`: two printable bytes that encode `i`. -/
def cap_token (i : Nat) : List Byte := [Fin.ofNat (33 + i / 101), Fin.ofNat (33 + i % 101)]

/-- A file of 30003 bytes with `MAX_UNIQ_WORDS + 1` distinct tokens of two printable bytes,
each followed by a space. -/
def cap_file : List Byte :=
  ((List.range (MAX_UNIQ_WORDS + 1)).map cap_token).flatMap (fun t => t ++ [32])

/-- The table after the tokens `cap_token 0`, ..., `cap_token (n - 1)` have been recorded
once each: they fill the first `n` slots, and the other slots are free. -/
def cap_table (n : Nat) : Shared :=
  { uniq_wlist :=
      { words := fun i => if i < n then cap_token i else [],
        ind_word_count := fun i => if i < n then 1 else -1 },
    mutex_var := false }

/-- A file of 715827883 bytes, the least size for which `NUM_THREADS * size` is not an
`int`: 715827877 spaces, then the three tokens `a`, `b`, `c`, each followed by a space. -/
def big_file : List Byte := List.replicate 715827877 32 ++ [97, 32, 98, 32, 99, 32]

/-! ## Interleaved execution of unique_word_count -/

/-- The tokens that the token loop of worker `k` hands to its body, in order. -/
def reads_of (content : List Byte) (k : Nat) : List (List Byte) :=
  match hand_off (init_thread content k) with
  | .error _ => []
  | .ok (fp, buffer) =>
    match token_loop (fun w (s : List (List Byte)) => Except.ok (Flow.next (s ++ [w])))
        (init_thread content k).region (loop_fuel fp) fp buffer [] [] with
    | .error _ => []
    | .ok (_, _, s, _) => s

/-- A worker of unique-word mode between two steps: the tokens it has still to record
(the first of them is in `buffer` once it has been scanned for), its local `check`, and,
after the `for` loop and in front of the second `pthread_mutex_lock`, its local `i`. -/
structure Worker where
  todo : List (List Byte)
  check : Bool
  scanned : Option Nat

structure Config where
  shared : Shared
  workers : List Worker

/-- One step of worker `k`, run without interruption: either the `fscanf` and the `for`
loop, which holds the mutex only around each increment, or the block under the second
lock.  A worker with nothing left to do does not move. -/
def step (c : Config) (k : Nat) : Except Fault Config :=
  match c.workers[k]? with
  | none => .ok c
  | some wk =>
    match wk.todo with
    | [] => .ok c
    | w :: rest =>
      match wk.scanned with
      | none =>
        match scan_words w (MAX_UNIQ_WORDS + 1) 0 c.shared wk.check with
        | .error e => .error e
        | .ok (i, g, check) =>
          .ok { shared := g,
                workers := c.workers.set k { todo := w :: rest, check := check, scanned := some i } }
      | some i =>
        match insert_or_skip w i c.shared wk.check with
        | .error e => .error e
        | .ok (.next (g, check)) =>
          .ok { shared := g,
                workers := c.workers.set k { todo := rest, check := check, scanned := none } }
        | .ok (.ret (g, check)) =>
          .ok { shared := g,
                workers := c.workers.set k { todo := [], check := check, scanned := none } }

/-- The steps of the workers named by the schedule, one after the other. -/
def run_schedule : List Nat → Config → Except Fault Config
  | [], c => .ok c
  | k :: ks, c =>
    match step c k with
    | .error e => .error e
    | .ok c1 => run_schedule ks c1

def initial_config (content : List Byte) : Config :=
  { shared := init_shared,
    workers := (List.range NUM_THREADS).map
      (fun k => { todo := reads_of content k, check := false, scanned := none }) }

/-- The first three word slots and the number `main` reports after the workers have
taken their steps in the order of the schedule. -/
def interleaved_unique (schedule : List Nat) (content : List Byte) :
    Except Fault (List (List Byte) × Nat) :=
  match run_schedule schedule (initial_config content) with
  | .error e => .error e
  | .ok c =>
    match count_entries c.shared.uniq_wlist (MAX_UNIQ_WORDS + 1) 0 0 with
    | .error e => .error e
    | .ok n => .ok ((List.range 3).map c.shared.uniq_wlist.words, n)

/-! ## Arithmetic of the regions -/

theorem wrap_int_of_range (x : Int) (h0 : 0 ≤ x) (h1 : x ≤ INT_MAX) : wrap_int x = x := by
  unfold wrap_int
  unfold INT_MAX at h1
  omega

theorem start_pos_of_eq (size : Int) (i : Nat) (h0 : 0 ≤ size)
    (h1 : (i : Int) * size ≤ INT_MAX) : start_pos_of size i = (i : Int) * size / 3 := by
  have hnn : 0 ≤ (i : Int) * size := mul_nonneg (Int.ofNat_nonneg i) h0
  unfold start_pos_of c_ceil
  rw [wrap_int_of_range _ hnn h1]
  exact Int.tdiv_eq_ediv hnn (by decide)

theorem region_of_eq_start_pos_of (size : Int) (i : Nat) :
    region_of size i = start_pos_of size (i + 1) := by
  unfold region_of start_pos_of
  push_cast
  rfl

theorem start_pos_of_zero (size : Int) : start_pos_of size 0 = 0 := by
  unfold start_pos_of c_ceil wrap_int
  simp

theorem start_pos_of_three (size : Int) (h0 : 0 ≤ size) (h1 : 3 * size ≤ INT_MAX) :
    start_pos_of size 3 = size := by
  rw [start_pos_of_eq size 3 h0 (by push_cast; omega)]
  push_cast
  omega

theorem start_pos_of_mono (size : Int) (i j : Nat) (h0 : 0 ≤ size) (hij : i ≤ j)
    (h1 : (j : Int) * size ≤ INT_MAX) : start_pos_of size i ≤ start_pos_of size j := by
  have hle : (i : Int) * size ≤ (j : Int) * size :=
    mul_le_mul_of_nonneg_right (by exact_mod_cast hij) h0
  rw [start_pos_of_eq size i h0 (le_trans hle h1), start_pos_of_eq size j h0 h1]
  exact Int.ediv_le_ediv (by decide) hle

/-! ## Tokens of a byte list -/

theorem drop_length_takeWhile (p : Byte → Bool) (l : List Byte) :
    l.drop (l.takeWhile p).length = l.dropWhile p := by
  induction l with
  | nil => simp
  | cons b bs ih =>
    by_cases h : p b = true
    · simp [List.takeWhile_cons, List.dropWhile_cons, h, ih]
    · simp [List.takeWhile_cons, List.dropWhile_cons, h]

theorem tokens_at_nil (off : Nat) : tokens_at off [] = [] := by
  simp [tokens_at, tok_split]

theorem tokens_at_cons_space (off : Nat) (b : Byte) (bs : List Byte) (h : isspace b = true) :
    tokens_at off (b :: bs) = tokens_at (off + 1) bs := by
  simp [tokens_at, tok_split, h]

theorem tok_split_eq (l : List Byte) : ∀ off : Nat,
    tok_split off l =
      (l.takeWhile nonspace,
        tokens_at (off + (l.takeWhile nonspace).length) (l.dropWhile nonspace)) := by
  induction l with
  | nil => intro off; simp [tok_split, tokens_at]
  | cons b bs ih =>
    intro off
    by_cases h : isspace b = true
    · have hn : nonspace b = false := by simp [nonspace, h]
      simp [tok_split, h, hn, List.takeWhile_cons, List.dropWhile_cons, tokens_at]
    · have hn : nonspace b = true := by simpa [nonspace] using h
      have hf : isspace b = false := by simpa using h
      simp only [tok_split, hf, List.takeWhile_cons, hn, List.dropWhile_cons, if_true]
      rw [ih (off + 1)]
      simp only [List.length_cons, Bool.false_eq_true, if_false]
      have : off + 1 + (List.takeWhile nonspace bs).length
          = off + ((List.takeWhile nonspace bs).length + 1) := by omega
      rw [this]

theorem tokens_at_cons_nonspace (off : Nat) (b : Byte) (bs : List Byte)
    (h : isspace b = false) :
    tokens_at off (b :: bs) =
      (off, b :: bs.takeWhile nonspace) ::
        tokens_at (off + 1 + (bs.takeWhile nonspace).length) (bs.dropWhile nonspace) := by
  unfold tokens_at
  simp only [tok_split, h, Bool.false_eq_true, if_false, List.isEmpty_cons]
  rw [tok_split_eq bs (off + 1)]
  simp [tokens_at]

/-- A scan that reaches the end of the input while skipping white space: no token is left. -/
theorem tokens_at_of_eof (l : List Byte) : ∀ off : Nat, l.dropWhile isspace = [] →
    tokens_at off l = [] := by
  induction l with
  | nil => intro off _; exact tokens_at_nil off
  | cons b bs ih =>
    intro off h
    by_cases hb : isspace b = true
    · rw [tokens_at_cons_space off b bs hb]
      apply ih
      simpa [List.dropWhile_cons, hb] using h
    · simp [List.dropWhile_cons, hb] at h

/-- A scan that finds a token: it is the first token of the input, and the tokens of the
rest of the input are the remaining ones. -/
theorem tokens_at_of_scan (l : List Byte) : ∀ off : Nat, l.dropWhile isspace ≠ [] →
    tokens_at off l =
      (off + (l.takeWhile isspace).length, (l.dropWhile isspace).takeWhile nonspace) ::
        tokens_at
          (off + (l.takeWhile isspace).length
            + ((l.dropWhile isspace).takeWhile nonspace).length)
          (l.drop ((l.takeWhile isspace).length
            + ((l.dropWhile isspace).takeWhile nonspace).length)) := by
  induction l with
  | nil => intro off h; simp at h
  | cons b bs ih =>
    intro off h
    by_cases hb : isspace b = true
    · have h1 : bs.dropWhile isspace ≠ [] := by simpa [List.dropWhile_cons, hb] using h
      rw [tokens_at_cons_space off b bs hb, ih (off + 1) h1]
      simp only [List.takeWhile_cons, hb, if_true, List.dropWhile_cons, List.length_cons]
      have e1 : off + 1 + (List.takeWhile isspace bs).length
          = off + ((List.takeWhile isspace bs).length + 1) := by omega
      have e2 : (List.takeWhile isspace bs).length + 1
            + (List.takeWhile nonspace (List.dropWhile isspace bs)).length
          = ((List.takeWhile isspace bs).length
            + (List.takeWhile nonspace (List.dropWhile isspace bs)).length) + 1 := by omega
      rw [e1, e2, List.drop_succ_cons]
    · have hf : isspace b = false := by simpa using hb
      have hn : nonspace b = true := by simp [nonspace, hf]
      rw [tokens_at_cons_nonspace off b bs hf]
      simp only [List.takeWhile_cons, hf, Bool.false_eq_true, if_false, List.dropWhile_cons,
        List.length_nil, Nat.add_zero, Nat.zero_add, hn, if_true, List.length_cons]
      rw [List.drop_succ_cons, drop_length_takeWhile]
      have e1 : off + 1 + (List.takeWhile nonspace bs).length
          = off + ((List.takeWhile nonspace bs).length + 1) := by omega
      rw [e1]

/-! ## One `%s` conversion -/

theorem length_takeWhile_add_dropWhile (p : Byte → Bool) (l : List Byte) :
    (l.takeWhile p).length + (l.dropWhile p).length = l.length := by
  have h := congrArg List.length (List.takeWhile_append_dropWhile p l)
  rw [List.length_append] at h
  exact h

theorem length_takeWhile_le_length (p : Byte → Bool) (l : List Byte) :
    (l.takeWhile p).length ≤ l.length := by
  have := length_takeWhile_add_dropWhile p l
  omega

theorem scan_len_le (l : List Byte) : scan_len l ≤ l.length := by
  unfold scan_len
  have h1 := length_takeWhile_add_dropWhile isspace l
  have h2 := length_takeWhile_le_length nonspace (l.dropWhile isspace)
  omega

theorem scan_len_pos (l : List Byte) (h : l.dropWhile isspace ≠ []) : 0 < scan_len l := by
  unfold scan_len
  cases hd : l.dropWhile isspace with
  | nil => exact absurd hd h
  | cons b bs =>
    have hb : ¬ isspace b = true := by
      have := List.head_dropWhile_not isspace l (by rw [hd]; simp)
      simpa [hd] using this
    have hn : nonspace b = true := by simpa [nonspace] using hb
    simp [List.takeWhile_cons, hn]

theorem fscanf_s_eof (content : List Byte) (p : Nat) (buffer : List Byte)
    (h : (content.drop p).dropWhile isspace = []) :
    fscanf_s { content := content, pos := p } buffer
      = .ok (EOF, buffer, { content := content, pos := scan_end content p }) := by
  simp [fscanf_s, scan_end, h]

theorem fscanf_s_tok (content : List Byte) (p : Nat) (buffer : List Byte)
    (h : (content.drop p).dropWhile isspace ≠ [])
    (hfit : (((content.drop p).dropWhile isspace).takeWhile nonspace).length < BUF_SIZE) :
    fscanf_s { content := content, pos := p } buffer
      = .ok (1, ((content.drop p).dropWhile isspace).takeWhile nonspace,
          { content := content, pos := scan_end content p }) := by
  have hfit2 : ¬ BUF_SIZE ≤ (((content.drop p).dropWhile isspace).takeWhile nonspace).length :=
    Nat.not_le.mpr hfit
  simp only [fscanf_s, scan_end, scan_len, List.isEmpty_eq_true, h, if_false, hfit2]
  simp [Nat.add_assoc]

theorem scan_end_le (content : List Byte) (p : Nat) (hp : p ≤ content.length) :
    scan_end content p ≤ content.length := by
  unfold scan_end
  split
  · simp [hp]
  · have := scan_len_le (content.drop p)
    simp only [List.length_drop] at this
    omega

theorem le_scan_end (content : List Byte) (p : Nat) : p ≤ scan_end content p := by
  unfold scan_end
  split
  · exact le_max_left _ _
  · omega

theorem lt_scan_end (content : List Byte) (p : Nat)
    (h : (content.drop p).dropWhile isspace ≠ []) : p < scan_end content p := by
  have := scan_len_pos _ h
  simp only [scan_end, List.isEmpty_eq_true, h, if_false]
  omega

theorem drop_scan_end (content : List Byte) (p : Nat)
    (h : (content.drop p).dropWhile isspace ≠ []) :
    content.drop (scan_end content p) = (content.drop p).drop (scan_len (content.drop p)) := by
  simp only [scan_end, List.isEmpty_eq_true, h, if_false, List.drop_drop]

/-- Inside a token: a scan issued there reads the rest of the token. -/
theorem scan_inside_token (l : List Byte) : ∀ j : Nat, j < (l.takeWhile nonspace).length →
    (l.drop j).dropWhile isspace ≠ [] ∧ scan_len (l.drop j) + j = (l.takeWhile nonspace).length := by
  induction l with
  | nil => intro j h; simp at h
  | cons b bs ih =>
    intro j h
    by_cases hn : nonspace b = true
    · have hs : isspace b = false := by simpa [nonspace] using hn
      cases j with
      | zero =>
        simp [scan_len, List.takeWhile_cons, List.dropWhile_cons, hs, hn]
      | succ j =>
        simp only [List.takeWhile_cons, hn, if_true, List.length_cons] at h ⊢
        have := ih j (by omega)
        simp only [List.drop_succ_cons]
        exact ⟨this.1, by omega⟩
    · simp [List.takeWhile_cons, hn] at h

/-- A scan issued in the white space in front of a token, or inside the token, ends where
the scan issued at the beginning ends. -/
theorem scan_len_drop (l : List Byte) : ∀ j : Nat, l.dropWhile isspace ≠ [] → j < scan_len l →
    (l.drop j).dropWhile isspace ≠ [] ∧ scan_len (l.drop j) + j = scan_len l := by
  induction l with
  | nil => intro j h; simp at h
  | cons b bs ih =>
    intro j h hj
    by_cases hs : isspace b = true
    · cases j with
      | zero => exact ⟨by simpa using h, by simp⟩
      | succ j =>
        have h1 : bs.dropWhile isspace ≠ [] := by simpa [List.dropWhile_cons, hs] using h
        have e : scan_len (b :: bs) = scan_len bs + 1 := by
          simp [scan_len, List.takeWhile_cons, List.dropWhile_cons, hs]; omega
        rw [e] at hj ⊢
        have := ih j h1 (by omega)
        simp only [List.drop_succ_cons]
        exact ⟨this.1, by omega⟩
    · have hf : isspace b = false := by simpa using hs
      have e : scan_len (b :: bs) = ((b :: bs).takeWhile nonspace).length := by
        simp [scan_len, List.takeWhile_cons, List.dropWhile_cons, hf]
      rw [e] at hj ⊢
      exact scan_inside_token (b :: bs) j hj

theorem eof_drop (l : List Byte) (j : Nat) (h : l.dropWhile isspace = []) :
    (l.drop j).dropWhile isspace = [] := by
  rw [List.dropWhile_eq_nil_iff] at h ⊢
  intro x hx
  exact h x (List.mem_of_mem_drop hx)

/-- The hand-off read of the next worker ends where the token loop of the worker before it
ends: a scan issued at `r` ends where the scan issued at `p ≤ r` ends, when that end
is after `r` or the scan at `p` reaches the end of the file. -/
theorem scan_end_stable (content : List Byte) (p r : Nat) (hpr : p ≤ r)
    (hr : r ≤ content.length)
    (h : r < scan_end content p ∨ (content.drop p).dropWhile isspace = []) :
    scan_end content r = scan_end content p := by
  have hdrop : content.drop r = (content.drop p).drop (r - p) := by
    rw [List.drop_drop]; congr 1; omega
  by_cases he : (content.drop p).dropWhile isspace = []
  · have he2 : (content.drop r).dropWhile isspace = [] := by
      rw [hdrop]; exact eof_drop _ _ he
    simp only [scan_end, he, he2, List.isEmpty_nil, if_true]
    omega
  · have hlt : r < scan_end content p := by
      rcases h with h | h
      · exact h
      · exact absurd h he
    have hp : scan_end content p = p + scan_len (content.drop p) := by
      simp only [scan_end, List.isEmpty_eq_true, he, if_false]
    have := scan_len_drop (content.drop p) (r - p) he (by omega)
    rw [← hdrop] at this
    have hr2 : scan_end content r = r + scan_len (content.drop r) := by
      simp only [scan_end, List.isEmpty_eq_true, this.1, if_false]
    omega

/-! ## Tokens that fit the buffer -/

theorem fits_tail (off : Nat) (b : Byte) (l : List Byte)
    (h : ∀ t ∈ tokens_at off (b :: l), t.2.length < BUF_SIZE) :
    ∀ t ∈ tokens_at (off + 1) l, t.2.length < BUF_SIZE := by
  by_cases hb : isspace b = true
  · rw [tokens_at_cons_space off b l hb] at h
    exact h
  · have hf : isspace b = false := by simpa using hb
    rw [tokens_at_cons_nonspace off b l hf] at h
    cases l with
    | nil => intro t ht; simp [tokens_at_nil] at ht
    | cons c l' =>
      by_cases hc : isspace c = true
      · have hn : nonspace c = false := by simp [nonspace, hc]
        simp only [List.takeWhile_cons, hn, Bool.false_eq_true, if_false, List.dropWhile_cons,
          List.length_nil, Nat.add_zero] at h
        intro t ht
        exact h t (List.mem_cons_of_mem _ ht)
      · have hcf : isspace c = false := by simpa using hc
        have hn : nonspace c = true := by simp [nonspace, hcf]
        simp only [List.takeWhile_cons, hn, if_true, List.dropWhile_cons,
          List.length_cons] at h
        rw [tokens_at_cons_nonspace (off + 1) c l' hcf]
        intro t ht
        rcases List.mem_cons.mp ht with ht | ht
        · have := h _ (List.mem_cons_self _ _)
          simp only [List.length_cons] at this
          rw [ht]
          simp only [List.length_cons]
          omega
        · apply h t
          apply List.mem_cons_of_mem
          have e : off + 1 + ((List.takeWhile nonspace l').length + 1)
              = off + 1 + 1 + (List.takeWhile nonspace l').length := by omega
          rw [e]
          exact ht

theorem fits_drop : ∀ (j : Nat) (l : List Byte) (off : Nat),
    (∀ t ∈ tokens_at off l, t.2.length < BUF_SIZE) →
    ∀ t ∈ tokens_at (off + j) (l.drop j), t.2.length < BUF_SIZE := by
  intro j
  induction j with
  | zero => intro l off h; simpa using h
  | succ j ih =>
    intro l off h
    cases l with
    | nil => intro t ht; simp [tokens_at_nil] at ht
    | cons b bs =>
      have := ih bs (off + 1) (fits_tail off b bs h)
      have e : off + 1 + j = off + (j + 1) := by omega
      rw [e] at this
      simpa using this

/-- In a file whose tokens fit the buffer, every `%s` conversion, wherever it is issued,
stores fewer than 256 bytes in front of the NUL. -/
theorem fits_scan (content : List Byte) (hfit : fits_buffer content) (p : Nat)
    (h : (content.drop p).dropWhile isspace ≠ []) :
    (((content.drop p).dropWhile isspace).takeWhile nonspace).length < BUF_SIZE := by
  have h0 : ∀ t ∈ tokens_at 0 content, t.2.length < BUF_SIZE := by
    intro t ht
    exact hfit t.2 (List.mem_map_of_mem Prod.snd ht)
  have h1 := fits_drop p content 0 h0
  rw [tokens_at_of_scan (content.drop p) (0 + p) h] at h1
  exact h1 _ (List.mem_cons_self _ _)

/-! ## The token loop -/

theorem toNat_of_natCast_le (p : Nat) (r : Int) (h : (p : Int) ≤ r) :
    p ≤ r.toNat ∧ ((r.toNat : Nat) : Int) = r := by
  have h0 : 0 ≤ r := le_trans (Int.ofNat_nonneg p) h
  have h1 : ((r.toNat : Nat) : Int) = r := Int.toNat_of_nonneg h0
  constructor
  · omega
  · exact h1

/-- The token loop started at position `p` with region end `r` applies its body to a
list `R` of consecutive tokens of the file, the first of them the first token found from
`p` on, and stops at a position `q`: the position where it started when that is after
`r`, and otherwise the position where a scan issued at `r` ends. -/
theorem token_loop_eq (content : List Byte) (hfit : fits_buffer content) (r : Int)
    (hr : r ≤ (content.length : Int)) :
    ∀ (fuel p : Nat), p ≤ content.length → content.length < p + fuel →
    ∃ (R : List (Nat × List Byte)) (q : Nat),
      tokens_at p (content.drop p) = R ++ tokens_at q (content.drop q) ∧
      q = (if (p : Int) ≤ r then scan_end content r.toNat else p) ∧
      q ≤ content.length ∧
      (R ≠ [] → (p : Int) ≤ r) ∧
      (∀ a ∈ R.map Prod.fst, p ≤ a) ∧
      (∀ a ∈ (R.map Prod.fst).dropLast, (a : Int) < r) ∧
      ∀ (σ : Type) (body : List Byte → σ → Except Fault (Flow σ)) (buffer : List Byte) (s : σ)
        (owned : List Nat),
        token_loop body r fuel { content := content, pos := p } buffer s owned
          = run_reads body content q R buffer s owned := by
  intro fuel
  induction fuel with
  | zero => intro p hp hf; omega
  | succ n ih =>
    intro p hp hf
    by_cases hpr : (p : Int) ≤ r
    · obtain ⟨hpr1, hpr2⟩ := toNat_of_natCast_le p r hpr
      have hrn : r.toNat ≤ content.length := by omega
      by_cases he : (content.drop p).dropWhile isspace = []
      · have hq : scan_end content p = content.length := by
          simp only [scan_end, he, List.isEmpty_nil, if_true]
          omega
        refine ⟨[], scan_end content p, ?_, ?_, ?_, ?_, ?_, ?_, ?_⟩
        · rw [tokens_at_of_eof _ _ he, hq]
          simp [tokens_at_nil]
        · rw [if_pos hpr]
          exact (scan_end_stable content p r.toNat hpr1 hrn (Or.inr he)).symm
        · exact scan_end_le content p hp
        · intro h; exact absurd rfl h
        · intro a ha; simp at ha
        · intro a ha; simp at ha
        · intro σ body buffer s owned
          simp only [token_loop, ftell, hpr, if_true]
          rw [fscanf_s_eof content p buffer he]
          simp [run_reads]
      · have hlt := lt_scan_end content p he
        have hle := scan_end_le content p hp
        obtain ⟨R', q', h1, h2, h3, h4, h5, h6, h7⟩ :=
          ih (scan_end content p) hle (by omega)
        have hse : scan_end content p
            = p + ((content.drop p).takeWhile isspace).length
              + (((content.drop p).dropWhile isspace).takeWhile nonspace).length := by
          simp only [scan_end, List.isEmpty_eq_true, he, if_false, scan_len]
          omega
        have htokpos : 0 < (((content.drop p).dropWhile isspace).takeWhile nonspace).length := by
          have := scan_len_pos _ he
          cases hd : (content.drop p).dropWhile isspace with
          | nil => exact absurd hd he
          | cons b bs =>
            have hb : ¬ isspace b = true := by
              have := List.head_dropWhile_not isspace (content.drop p) (by rw [hd]; simp)
              simpa [hd] using this
            have hn : nonspace b = true := by simpa [nonspace] using hb
            simp [List.takeWhile_cons, hn]
        refine ⟨(p + ((content.drop p).takeWhile isspace).length,
            ((content.drop p).dropWhile isspace).takeWhile nonspace) :: R', q', ?_, ?_, ?_, ?_, ?_,
            ?_, ?_⟩
        · rw [tokens_at_of_scan _ p he, List.cons_append, ← h1, ← hse]
          have := drop_scan_end content p he
          simp only [scan_len] at this
          rw [this]
        · rw [if_pos hpr, h2]
          by_cases hq : ((scan_end content p : Nat) : Int) ≤ r
          · rw [if_pos hq]
          · rw [if_neg hq]
            have : r.toNat < scan_end content p := by omega
            exact (scan_end_stable content p r.toNat hpr1 hrn (Or.inl this)).symm
        · exact h3
        · intro _; exact hpr
        · intro a ha
          simp only [List.map_cons, List.mem_cons] at ha
          rcases ha with ha | ha
          · omega
          · have := h5 a ha
            omega
        · intro a ha
          by_cases hR : R' = []
          · subst hR; simp at ha
          · have hne : List.map Prod.fst R' ≠ [] := by simpa using hR
            simp only [List.map_cons] at ha
            rw [List.dropLast_cons_of_ne_nil hne] at ha
            rcases List.mem_cons.mp ha with ha | ha
            · have := h4 hR
              omega
            · exact h6 a ha
        · intro σ body buffer s owned
          simp only [token_loop, ftell, hpr, if_true]
          rw [fscanf_s_tok content p buffer he (fits_scan content hfit p he)]
          have h1e : ¬ ((1 : Int) = EOF) := by decide
          simp only [h1e, if_false, run_reads]
          have hsub : scan_end content p
              - (((content.drop p).dropWhile isspace).takeWhile nonspace).length
              = p + ((content.drop p).takeWhile isspace).length := by omega
          cases hb : body (((content.drop p).dropWhile isspace).takeWhile nonspace) s with
          | error e => rfl
          | ok fl =>
            cases fl with
            | next s1 =>
              simp only [hsub]
              exact h7 σ body _ s1 _
            | ret s1 =>
              simp only [hsub, ← hse]
    · refine ⟨[], p, ?_, ?_, ?_, ?_, ?_, ?_, ?_⟩
      · simp
      · rw [if_neg hpr]
      · exact hp
      · intro h; exact absurd rfl h
      · intro a ha; simp at ha
      · intro a ha; simp at ha
      · intro σ body buffer s owned
        simp [token_loop, ftell, hpr, run_reads]

/-! ## The workers of one run -/

theorem file_size_eq (content : List Byte) (hsz : 3 * (content.length : Int) ≤ INT_MAX) :
    file_size content = (content.length : Int) := by
  unfold file_size
  apply wrap_int_of_range
  · exact Int.ofNat_nonneg _
  · have := Int.ofNat_nonneg content.length
    omega

theorem start_pos_of_bound (content : List Byte) (hsz : 3 * (content.length : Int) ≤ INT_MAX)
    (k : Nat) (hk : k ≤ 3) :
    start_pos_of (file_size content) k = (bound content k : Int) := by
  have h0 : (0 : Int) ≤ (content.length : Int) := Int.ofNat_nonneg _
  have hk1 : (k : Int) * (content.length : Int) ≤ INT_MAX := by
    have : (k : Int) * (content.length : Int) ≤ 3 * (content.length : Int) :=
      mul_le_mul_of_nonneg_right (by exact_mod_cast hk) h0
    omega
  rw [file_size_eq content hsz, start_pos_of_eq _ k h0 hk1]
  unfold bound NUM_THREADS
  push_cast
  rfl

theorem bound_zero (content : List Byte) : bound content 0 = 0 := by
  simp [bound]

theorem bound_three (content : List Byte) : bound content 3 = content.length := by
  unfold bound NUM_THREADS
  omega

theorem bound_mono (content : List Byte) (i j : Nat) (h : i ≤ j) :
    bound content i ≤ bound content j := by
  unfold bound
  exact Nat.div_le_div_right (Nat.mul_le_mul_right _ h)

theorem bound_le (content : List Byte) (k : Nat) (hk : k ≤ 3) :
    bound content k ≤ content.length := by
  have := bound_mono content k 3 hk
  rw [bound_three] at this
  exact this

theorem loop_start_le (content : List Byte) (k : Nat) (hk : k ≤ 3) :
    loop_start content k ≤ content.length := by
  unfold loop_start
  split
  · exact Nat.zero_le _
  · exact scan_end_le content _ (bound_le content k hk)

theorem bound_le_loop_start (content : List Byte) (k : Nat) :
    bound content k ≤ loop_start content k := by
  unfold loop_start
  split
  · next h => subst h; rw [bound_zero]
  · exact le_scan_end content _

theorem init_thread_laid_out (content : List Byte)
    (hsz : 3 * (content.length : Int) ≤ INT_MAX) (k : Nat) (hk : k < 3) :
    laid_out content k (init_thread content k) := by
  refine ⟨?_, ?_, ?_, ?_⟩
  · simp only [init_thread]
  · simp only [init_thread, fopen]
  · simp only [init_thread]
    exact start_pos_of_bound content hsz k (by omega)
  · simp only [init_thread]
    rw [region_of_eq_start_pos_of]
    exact start_pos_of_bound content hsz (k + 1) (by omega)

/-- The statements in front of the token loop leave the stream of worker `k` at
`loop_start content k`. -/
theorem hand_off_eq (content : List Byte) (hfit : fits_buffer content) (k : Nat)
    (t : thread_args) (ht : laid_out content k t) :
    ∃ buffer, hand_off t
      = .ok ({ content := content, pos := loop_start content k }, buffer) := by
  obtain ⟨h1, h2, h3, _⟩ := ht
  have hnn : ¬ ((bound content k : Nat) : Int) < 0 := by omega
  unfold hand_off
  simp only [h1, h2, h3, fseek, hnn, if_false, Int.toNat_ofNat]
  by_cases h0 : k = 0
  · subst h0
    refine ⟨t.buffer, ?_⟩
    simp [loop_start, bound_zero]
  · simp only [ne_eq, h0, not_false_eq_true, if_true, loop_start, if_false]
    by_cases he : (content.drop (bound content k)).dropWhile isspace = []
    · refine ⟨t.buffer, ?_⟩
      rw [fscanf_s_eof content _ _ he]
    · refine ⟨((content.drop (bound content k)).dropWhile isspace).takeWhile nonspace, ?_⟩
      rw [fscanf_s_tok content _ _ he (fits_scan content hfit _ he)]

/-- The reads of worker `k`: its token loop applies its body to a list `R` of consecutive
tokens that begins where worker `k` starts and ends where worker `k + 1` starts. -/
theorem worker_reads (content : List Byte) (hfit : fits_buffer content) (k : Nat) (hk : k < 3) :
    ∃ R : List (Nat × List Byte),
      tokens_at (loop_start content k) (content.drop (loop_start content k))
        = R ++ tokens_at (loop_start content (k + 1))
            (content.drop (loop_start content (k + 1))) ∧
      (∀ a ∈ R.map Prod.fst, bound content k ≤ a) ∧
      (∀ a ∈ (R.map Prod.fst).dropLast, a < bound content (k + 1)) ∧
      ∀ (σ : Type) (body : List Byte → σ → Except Fault (Flow σ)) (buffer : List Byte) (s : σ)
        (owned : List Nat),
        token_loop body (bound content (k + 1) : Int) (content.length + 1)
            { content := content, pos := loop_start content k } buffer s owned
          = run_reads body content (loop_start content (k + 1)) R buffer s owned := by
  have hb1 := bound_le content (k + 1) (by omega)
  have hmono := bound_mono content k (k + 1) (by omega)
  have hp := loop_start_le content k (by omega)
  obtain ⟨R, q, h1, h2, _, _, h5, h6, h7⟩ :=
    token_loop_eq content hfit (bound content (k + 1) : Int) (by exact_mod_cast hb1)
      (content.length + 1) (loop_start content k) hp (by omega)
  have hq : q = loop_start content (k + 1) := by
    rw [h2]
    have hls : loop_start content (k + 1) = scan_end content (bound content (k + 1)) := by
      simp [loop_start]
    rw [hls, Int.toNat_ofNat]
    split
    · rfl
    · next hgt =>
      have hgt' : bound content (k + 1) < loop_start content k := by omega
      have hk0 : k ≠ 0 := by
        intro h0
        subst h0
        simp [loop_start] at hgt'
      have hlk : loop_start content k = scan_end content (bound content k) := by
        simp [loop_start, hk0]
      rw [hlk] at hgt' ⊢
      symm
      exact scan_end_stable content _ _ hmono hb1 (Or.inl hgt')
  subst hq
  refine ⟨R, h1, ?_, ?_, h7⟩
  · intro a ha
    have := h5 a ha
    have := bound_le_loop_start content k
    omega
  · intro a ha
    exact_mod_cast h6 a ha

theorem loop_start_three (content : List Byte) :
    tokens_at (loop_start content 3) (content.drop (loop_start content 3)) = [] := by
  have : loop_start content 3 = content.length := by
    simp [loop_start, bound_three, scan_end]
  rw [this]
  simp [tokens_at_nil]

/-- The reads of the three workers, in worker order, are the tokens of the file. -/
theorem workers_partition (content : List Byte) (hfit : fits_buffer content) :
    ∃ R : Nat → List (Nat × List Byte),
      tokens_at 0 content = R 0 ++ R 1 ++ R 2 ∧
      ∀ k, k < 3 →
        (∀ a ∈ (R k).map Prod.fst, bound content k ≤ a) ∧
        (∀ a ∈ ((R k).map Prod.fst).dropLast, a < bound content (k + 1)) ∧
        ∀ (σ : Type) (body : List Byte → σ → Except Fault (Flow σ)) (buffer : List Byte)
          (s : σ) (owned : List Nat),
          token_loop body (bound content (k + 1) : Int) (content.length + 1)
              { content := content, pos := loop_start content k } buffer s owned
            = run_reads body content (loop_start content (k + 1)) (R k) buffer s owned := by
  obtain ⟨R0, a0, b0, c0, d0⟩ := worker_reads content hfit 0 (by omega)
  obtain ⟨R1, a1, b1, c1, d1⟩ := worker_reads content hfit 1 (by omega)
  obtain ⟨R2, a2, b2, c2, d2⟩ := worker_reads content hfit 2 (by omega)
  refine ⟨fun k => if k = 0 then R0 else if k = 1 then R1 else R2, ?_, ?_⟩
  · have e0 : tokens_at 0 content
        = tokens_at (loop_start content 0) (content.drop (loop_start content 0)) := by
      simp [loop_start]
    rw [e0, a0, a1, a2, loop_start_three content]
    simp
  · intro k hk
    have : k = 0 ∨ k = 1 ∨ k = 2 := by omega
    rcases this with h | h | h
    · subst h; exact ⟨b0, c0, d0⟩
    · subst h; exact ⟨b1, c1, d1⟩
    · subst h; exact ⟨b2, c2, d2⟩

/-! ## count_words and word mode -/

theorem init_thread_args_eq (content : List Byte) :
    init_thread_args content
      = [init_thread content 0, init_thread content 1, init_thread content 2] := by
  simp only [init_thread_args, NUM_THREADS, List.range_succ, List.range_zero, List.nil_append,
    List.map_append, List.map_cons, List.map_nil, List.cons_append]

theorem run_workers_three (f : thread_args → Except Fault thread_args)
    (t0 t1 t2 u0 u1 u2 : thread_args)
    (h0 : f t0 = .ok u0) (h1 : f t1 = .ok u1) (h2 : f t2 = .ok u2) :
    run_workers f [t0, t1, t2] = .ok [u0, u1, u2] := by
  simp [run_workers, h0, h1, h2]

theorem run_reads_count (content : List Byte) (q : Nat) :
    ∀ (R : List (Nat × List Byte)) (buffer : List Byte) (wc : Nat) (owned : List Nat),
    ∃ buffer1, run_reads (fun _ (n : Nat) => Except.ok (Flow.next (n + 1))) content q R buffer
        wc owned
      = .ok ({ content := content, pos := q }, buffer1, wc + R.length,
          owned ++ R.map Prod.fst) := by
  intro R
  induction R with
  | nil => intro buffer wc owned; exact ⟨buffer, by simp [run_reads]⟩
  | cons r rs ih =>
    intro buffer wc owned
    obtain ⟨b1, hb1⟩ := ih r.2 (wc + 1) (owned ++ [r.1])
    refine ⟨b1, ?_⟩
    simp only [run_reads, hb1, List.length_cons, List.map_cons, List.append_assoc,
      List.singleton_append]
    have : wc + 1 + rs.length = wc + (rs.length + 1) := by omega
    rw [this]

/-- What `count_words` does for a worker whose token loop performs the reads `R`: the reads
are counted and logged. -/
theorem count_words_of_reads (content : List Byte) (hfit : fits_buffer content) (k : Nat)
    (t : thread_args) (ht : laid_out content k t) (R : List (Nat × List Byte))
    (hloop : ∀ (σ : Type) (body : List Byte → σ → Except Fault (Flow σ)) (buffer : List Byte)
      (s : σ) (owned : List Nat),
      token_loop body (bound content (k + 1) : Int) (content.length + 1)
          { content := content, pos := loop_start content k } buffer s owned
        = run_reads body content (loop_start content (k + 1)) R buffer s owned) :
    ∃ u, count_words t = .ok u ∧ u.word_count = t.word_count + R.length ∧
      u.owned = t.owned ++ R.map Prod.fst ∧ u.line_count = t.line_count := by
  obtain ⟨buffer, hb⟩ := hand_off_eq content hfit k t ht
  obtain ⟨b1, hb1⟩ := run_reads_count content (loop_start content (k + 1)) R buffer
    t.word_count t.owned
  unfold count_words
  simp only [hb, loop_fuel, ht.2.2.2, hloop, hb1]
  exact ⟨_, rfl, rfl, rfl, rfl⟩

theorem tokens_length (content : List Byte) :
    (tokens content).length = (tokens_at 0 content).length := by
  simp [tokens]

/-- Word mode on a file whose tokens fit the buffer and whose size keeps the region
products in range: the workers' counts add up to the number of tokens, and their logs, in
worker order, are the offsets of the tokens. -/
theorem count_words_workers (content : List Byte) (hfit : fits_buffer content)
    (hsz : 3 * (content.length : Int) ≤ INT_MAX) :
    ∃ u0 u1 u2 : thread_args,
      count_words (init_thread content 0) = .ok u0 ∧
      count_words (init_thread content 1) = .ok u1 ∧
      count_words (init_thread content 2) = .ok u2 ∧
      u0.word_count + u1.word_count + u2.word_count = (tokens content).length ∧
      u0.owned ++ u1.owned ++ u2.owned = token_starts content ∧
      (∀ a ∈ u0.owned, bound content 0 ≤ a) ∧ (∀ a ∈ u1.owned, bound content 1 ≤ a) ∧
      (∀ a ∈ u2.owned, bound content 2 ≤ a) ∧
      (∀ a ∈ u0.owned.dropLast, a < bound content 1) ∧
      (∀ a ∈ u1.owned.dropLast, a < bound content 2) ∧
      (∀ a ∈ u2.owned.dropLast, a < bound content 3) := by
  obtain ⟨R, hR, hk⟩ := workers_partition content hfit
  obtain ⟨a0, b0, c0⟩ := hk 0 (by omega)
  obtain ⟨a1, b1, c1⟩ := hk 1 (by omega)
  obtain ⟨a2, b2, c2⟩ := hk 2 (by omega)
  have l0 := init_thread_laid_out content hsz 0 (by omega)
  have l1 := init_thread_laid_out content hsz 1 (by omega)
  have l2 := init_thread_laid_out content hsz 2 (by omega)
  obtain ⟨u0, e0, w0, o0, _⟩ := count_words_of_reads content hfit 0 _ l0 (R 0) c0
  obtain ⟨u1, e1, w1, o1, _⟩ := count_words_of_reads content hfit 1 _ l1 (R 1) c1
  obtain ⟨u2, e2, w2, o2, _⟩ := count_words_of_reads content hfit 2 _ l2 (R 2) c2
  have i0 : (init_thread content 0).word_count = 0 ∧ (init_thread content 0).owned = [] := by
    constructor <;> simp only [init_thread]
  have i1 : (init_thread content 1).word_count = 0 ∧ (init_thread content 1).owned = [] := by
    constructor <;> simp only [init_thread]
  have i2 : (init_thread content 2).word_count = 0 ∧ (init_thread content 2).owned = [] := by
    constructor <;> simp only [init_thread]
  rw [i0.1, Nat.zero_add] at w0
  rw [i1.1, Nat.zero_add] at w1
  rw [i2.1, Nat.zero_add] at w2
  rw [i0.2, List.nil_append] at o0
  rw [i1.2, List.nil_append] at o1
  rw [i2.2, List.nil_append] at o2
  refine ⟨u0, u1, u2, e0, e1, e2, ?_, ?_, ?_, ?_, ?_, ?_, ?_, ?_⟩
  · rw [w0, w1, w2, tokens_length, hR]
    simp only [List.length_append]
  · rw [o0, o1, o2, token_starts, hR]
    simp
  · rw [o0]; exact a0
  · rw [o1]; exact a1
  · rw [o2]; exact a2
  · rw [o0]; exact b0
  · rw [o1]; exact b1
  · rw [o2]; exact b2

theorem main_words_eq (content : List Byte) (hfit : fits_buffer content)
    (hsz : 3 * (content.length : Int) ≤ INT_MAX) :
    main_words content = .ok (tokens content).length := by
  obtain ⟨u0, u1, u2, e0, e1, e2, hsum, _⟩ := count_words_workers content hfit hsz
  unfold main_words
  rw [init_thread_args_eq, run_workers_three count_words _ _ _ u0 u1 u2 e0 e1 e2]
  simp only [List.map_cons, List.map_nil, List.sum_cons, List.sum_nil, Nat.add_zero]
  rw [← hsum, Nat.add_assoc]

/-- What `init_thread_args` computes when nothing overflows: the floor, not the ceiling,
of `i * size / NUM_THREADS`. -/
theorem start_pos_of_eq_floor (size : Int) (i : Nat) (h0 : 0 ≤ size)
    (h1 : (i : Int) * size ≤ INT_MAX) :
    start_pos_of size i = Int.floor ((((i : Int) * size : Int) : ℚ) / ((3 : Nat) : ℚ)) := by
  rw [start_pos_of_eq size i h0 h1, Rat.floor_intCast_div_natCast]
  rfl

/-! ## count_lines and line mode -/

/-- The number of newline bytes at the offsets `p ≤ i < r`. -/
theorem slice_count_add (content : List Byte) (p r q : Nat) (hpr : p ≤ r) (hrq : r ≤ q) :
    ((content.drop p).take (r - p)).count 10 + ((content.drop r).take (q - r)).count 10
      = ((content.drop p).take (q - p)).count 10 := by
  have e : q - p = (r - p) + (q - r) := by omega
  rw [e, List.take_add, List.count_append, List.drop_drop]
  have e2 : p + (r - p) = r := by omega
  rw [e2]

theorem to_char_byte (signed_char : Bool) (b : Byte)
    (hff : signed_char = true → b ≠ 255) :
    to_char signed_char (b.val : Int) ≠ EOF ∧
      (to_char signed_char (b.val : Int) = 10 ↔ b = 10) := by
  have hb := b.isLt
  have hval : (b = 10 ↔ b.val = 10) := by
    constructor
    · intro h; rw [h]; rfl
    · intro h; exact Fin.ext h
  have hne : signed_char = true → b.val ≠ 255 := by
    intro hs h
    exact hff hs (Fin.ext h)
  unfold to_char EOF
  cases signed_char with
  | false =>
    simp only [Bool.false_and, Bool.false_eq_true, if_false]
    rw [hval]
    constructor <;> omega
  | true =>
    have := hne rfl
    simp only [Bool.true_and, decide_eq_true_eq]
    rw [hval]
    split <;> constructor <;> omega

/-- The loop of `count_lines`, on a region that lies in the file and holds no byte that
the `char` conversion turns into `EOF`: it counts the newline bytes of the region. -/
theorem count_lines_loop_eq (signed_char : Bool) (content : List Byte)
    (hff : signed_char = true → ∀ b ∈ content, b ≠ 255) (r : Nat) (hr : r ≤ content.length) :
    ∀ (fuel p lc : Nat), p ≤ r → r < p + fuel →
      count_lines_loop signed_char (r : Int) fuel { content := content, pos := p } lc
        = .ok ({ content := content, pos := r },
            lc + ((content.drop p).take (r - p)).count 10) := by
  intro fuel
  induction fuel with
  | zero => intro p lc h1 h2; omega
  | succ n ih =>
    intro p lc h1 h2
    by_cases hlt : p < r
    · have hp : p < content.length := by omega
      have hget : content[p]? = some content[p] := List.getElem?_eq_getElem hp
      have hmem : content[p] ∈ content := List.getElem_mem hp
      obtain ⟨hne, h10⟩ := to_char_byte signed_char content[p] (fun hs => hff hs _ hmem)
      have hdrop : content.drop p = content[p] :: content.drop (p + 1) :=
        List.drop_eq_getElem_cons hp
      have htake : r - p = (r - (p + 1)) + 1 := by omega
      have hlt' : ((p : Nat) : Int) < (r : Int) := by exact_mod_cast hlt
      simp only [count_lines_loop, ftell, hlt', if_true, fgetc, hget, hne, if_false]
      rw [hdrop, htake, List.take_succ_cons, List.count_cons]
      by_cases hb : content[p] = 10
      · have hc : to_char signed_char (content[p].val : Int) = 10 := h10.mpr hb
        simp only [hc, if_true]
        rw [ih (p + 1) (lc + 1) (by omega) (by omega)]
        simp only [hb, beq_self_eq_true, if_true]
        have : lc + 1 + List.count 10 (List.take (r - (p + 1)) (List.drop (p + 1) content))
            = lc + (List.count 10 (List.take (r - (p + 1)) (List.drop (p + 1) content)) + 1) := by
          omega
        rw [this]
      · have hc : ¬ to_char signed_char (content[p].val : Int) = 10 := fun h => hb (h10.mp h)
        simp only [hc, if_false]
        rw [ih (p + 1) lc (by omega) (by omega)]
        have hbeq : (content[p] == 10) = false := by simpa using hb
        simp only [hbeq, Bool.false_eq_true, if_false, Nat.add_zero]
    · have hpr : p = r := by omega
      subst hpr
      simp [count_lines_loop, ftell]

theorem count_lines_of_layout (signed_char : Bool) (content : List Byte)
    (hff : signed_char = true → ∀ b ∈ content, b ≠ 255) (k : Nat) (hk : k < 3)
    (t : thread_args) (ht : laid_out content k t) :
    ∃ u, count_lines signed_char t = .ok u ∧
      u.line_count = t.line_count
        + ((content.drop (bound content k)).take
            (bound content (k + 1) - bound content k)).count 10 := by
  obtain ⟨_, h2, h3, h4⟩ := ht
  have hnn : ¬ ((bound content k : Nat) : Int) < 0 := by omega
  have hloop := count_lines_loop_eq signed_char content hff (bound content (k + 1))
    (bound_le content (k + 1) (by omega)) (content.length + 1) (bound content k) t.line_count
    (bound_mono content k (k + 1) (by omega))
    (by have := bound_le content (k + 1) (by omega); omega)
  unfold count_lines
  simp only [h2, h3, h4, fseek, hnn, if_false, Int.toNat_ofNat, loop_fuel, hloop]
  exact ⟨_, rfl, rfl⟩

/-- Line mode on a file whose size keeps the region products in range and in which no
byte is turned into `EOF` by the `char` conversion (no byte `0xFF` when plain `char` is
signed): the workers' counts add up to the number of newline bytes. -/
theorem main_lines_eq (signed_char : Bool) (content : List Byte)
    (hff : signed_char = true → ∀ b ∈ content, b ≠ 255)
    (hsz : 3 * (content.length : Int) ≤ INT_MAX) :
    main_lines signed_char content = .ok (newline_count content) := by
  obtain ⟨u0, e0, w0⟩ := count_lines_of_layout signed_char content hff 0 (by omega) _
    (init_thread_laid_out content hsz 0 (by omega))
  obtain ⟨u1, e1, w1⟩ := count_lines_of_layout signed_char content hff 1 (by omega) _
    (init_thread_laid_out content hsz 1 (by omega))
  obtain ⟨u2, e2, w2⟩ := count_lines_of_layout signed_char content hff 2 (by omega) _
    (init_thread_laid_out content hsz 2 (by omega))
  have i0 : (init_thread content 0).line_count = 0 := by simp only [init_thread]
  have i1 : (init_thread content 1).line_count = 0 := by simp only [init_thread]
  have i2 : (init_thread content 2).line_count = 0 := by simp only [init_thread]
  rw [i0, Nat.zero_add] at w0
  rw [i1, Nat.zero_add] at w1
  rw [i2, Nat.zero_add] at w2
  have h01 := bound_mono content 0 1 (by omega)
  have h12 := bound_mono content 1 2 (by omega)
  have h23 := bound_mono content 2 3 (by omega)
  have s1 := slice_count_add content (bound content 0) (bound content 1) (bound content 2)
    h01 h12
  have s2 := slice_count_add content (bound content 0) (bound content 2) (bound content 3)
    (le_trans h01 h12) h23
  have hall : ((content.drop (bound content 0)).take (bound content 3 - bound content 0)).count 10
      = newline_count content := by
    rw [bound_zero, bound_three]
    simp [newline_count]
  unfold main_lines
  rw [init_thread_args_eq, run_workers_three (count_lines signed_char) _ _ _ u0 u1 u2 e0 e1 e2]
  simp only [List.map_cons, List.map_nil, List.sum_cons, List.sum_nil, Nat.add_zero]
  rw [w0, w1, w2, ← hall, ← s2, ← s1, Nat.add_assoc]

/-! ## The table of unique words -/

theorem take_length_takeWhile (p : Byte → Bool) (l : List Byte) :
    l.take (l.takeWhile p).length = l.takeWhile p := by
  induction l with
  | nil => simp
  | cons b bs ih =>
    by_cases h : p b = true
    · simp [List.takeWhile_cons, h, ih]
    · simp [List.takeWhile_cons, h]

theorem c_str_of_c_token (c : List Byte) (h : c_token c) : c_str c = c := by
  unfold c_str
  rw [List.takeWhile_eq_self_iff]
  intro x hx
  have : x ≠ 0 := fun h0 => h.2 (h0 ▸ hx)
  simpa using this

theorem first_char_of_c_token (c : List Byte) (h : c_token c) : first_char c ≠ 0 := by
  cases c with
  | nil => exact absurd rfl h.1
  | cons b bs =>
    intro h0
    apply h.2
    simp only [first_char, List.headD_cons] at h0
    rw [h0]
    exact List.mem_cons_self _ _

theorem memmove_empty (w : List Byte) : memmove [] w (strlen w) = c_str w := by
  unfold memmove strlen c_str
  rw [take_length_takeWhile]
  simp

theorem c_token_c_str (w : List Byte) (h : c_str w ≠ []) : c_token (c_str w) := by
  refine ⟨h, ?_⟩
  intro h0
  have := List.mem_takeWhile_imp h0
  simp at this

theorem getD_of_lt (ws : List (List Byte)) (i : Nat) (h : i < ws.length) :
    ws.getD i [] = ws[i] := by
  simp [List.getD, List.getElem?_eq_getElem h]

theorem getD_of_le (ws : List (List Byte)) (i : Nat) (h : ws.length ≤ i) :
    ws.getD i [] = [] := by
  simp [List.getD, List.getElem?_eq_none h]

/-- The `for` loop of `unique_word_count` on a table that holds the C strings `ws` and has
a free slot: it ends at the first free slot `ws.length`, has incremented the count of
every slot equal to the token, and has set `check` when there is such a slot. -/
theorem scan_words_eq (w : List Byte) (ws : List (List Byte))
    (hok : ∀ c ∈ ws, c_token c) (hd : ws.length < MAX_UNIQ_WORDS) :
    ∀ (fuel i : Nat) (g : Shared) (chk : Bool),
      table_holds g.uniq_wlist ws → g.mutex_var = false →
      i ≤ ws.length → ws.length < i + fuel →
      ∃ (g1 : Shared) (chk1 : Bool),
        scan_words w fuel i g chk = .ok (ws.length, g1, chk1) ∧
        g1.mutex_var = false ∧
        g1.uniq_wlist.words = g.uniq_wlist.words ∧
        (∀ x, g1.uniq_wlist.ind_word_count x
          = g.uniq_wlist.ind_word_count x
            + (if i ≤ x ∧ x < ws.length ∧ ws.getD x [] = c_str w then 1 else 0)) ∧
        (chk1 = true ↔
          chk = true ∨ ∃ x, i ≤ x ∧ x < ws.length ∧ ws.getD x [] = c_str w) := by
  intro fuel
  induction fuel with
  | zero => intro i g chk _ _ h1 h2; omega
  | succ n ih =>
    intro i g chk hh hm h1 h2
    have hnot : ¬ MAX_UNIQ_WORDS ≤ i := by omega
    by_cases hi : i < ws.length
    · have hslot : g.uniq_wlist.words i = ws[i] := by
        rw [hh i (by omega), getD_of_lt ws i hi]
      have htok : c_token ws[i] := hok _ (List.getElem_mem hi)
      have hfc : first_char (g.uniq_wlist.words i) ≠ 0 := by
        rw [hslot]; exact first_char_of_c_token _ htok
      by_cases heq : c_str w = ws[i]
      · have hs : strcmp_zero w (g.uniq_wlist.words i) = true := by
          simp [strcmp_zero, hslot, c_str_of_c_token _ htok, heq]
        obtain ⟨g1, chk1, e1, e2, e3, e4, e5⟩ :=
          ih (i + 1)
            { uniq_wlist :=
                { words := g.uniq_wlist.words,
                  ind_word_count :=
                    Function.update g.uniq_wlist.ind_word_count i
                      (g.uniq_wlist.ind_word_count i + 1) },
              mutex_var := false }
            true hh rfl (by omega) (by omega)
        refine ⟨g1, chk1, ?_, e2, e3, ?_, ?_⟩
        · simp only [scan_words, hnot, if_false, ne_eq, hfc, not_false_eq_true, if_true, hs, hm,
            Bool.false_eq_true]
          exact e1
        · intro x
          rw [e4 x]
          by_cases hx : x = i
          · subst hx
            have c1 : ¬ (x + 1 ≤ x ∧ x < ws.length ∧ ws.getD x [] = c_str w) := by
              intro h; omega
            have c2 : x ≤ x ∧ x < ws.length ∧ ws.getD x [] = c_str w :=
              ⟨le_refl _, hi, by rw [getD_of_lt ws x hi, heq]⟩
            simp only [Function.update_same, c1, c2, if_false, if_true, and_self]
            omega
          · have c3 : (i + 1 ≤ x ∧ x < ws.length ∧ ws.getD x [] = c_str w)
                ↔ (i ≤ x ∧ x < ws.length ∧ ws.getD x [] = c_str w) := by
              constructor
              · rintro ⟨a, b, c⟩; exact ⟨by omega, b, c⟩
              · rintro ⟨a, b, c⟩; exact ⟨by omega, b, c⟩
            simp only [Function.update_noteq hx, c3]
        · constructor
          · intro _
            right
            exact ⟨i, le_refl _, hi, by rw [getD_of_lt ws i hi, heq]⟩
          · intro _
            exact e5.mpr (Or.inl rfl)
      · have hs : strcmp_zero w (g.uniq_wlist.words i) = false := by
          simp [strcmp_zero, hslot, c_str_of_c_token _ htok, heq]
        obtain ⟨g1, chk1, e1, e2, e3, e4, e5⟩ := ih (i + 1) g chk hh hm (by omega) (by omega)
        have c3 : ∀ x, (i + 1 ≤ x ∧ x < ws.length ∧ ws.getD x [] = c_str w)
            ↔ (i ≤ x ∧ x < ws.length ∧ ws.getD x [] = c_str w) := by
          intro x
          constructor
          · rintro ⟨a, b, c⟩; exact ⟨by omega, b, c⟩
          · rintro ⟨a, b, c⟩
            refine ⟨?_, b, c⟩
            by_contra hlt
            have hxi : x = i := by omega
            subst hxi
            rw [getD_of_lt ws x hi] at c
            exact heq c.symm
        refine ⟨g1, chk1, ?_, e2, e3, ?_, ?_⟩
        · simp only [scan_words, hnot, if_false, ne_eq, hfc, not_false_eq_true, if_true, hs,
            Bool.false_eq_true]
          exact e1
        · intro x
          rw [e4 x]
          simp only [c3 x]
        · rw [e5]
          constructor
          · rintro (h | ⟨x, hx⟩)
            · exact Or.inl h
            · exact Or.inr ⟨x, (c3 x).mp hx⟩
          · rintro (h | ⟨x, hx⟩)
            · exact Or.inl h
            · exact Or.inr ⟨x, (c3 x).mpr hx⟩
    · have hid : i = ws.length := by omega
      subst hid
      have hslot : g.uniq_wlist.words ws.length = [] := by
        rw [hh _ hd, getD_of_le ws _ (le_refl _)]
      refine ⟨g, chk, ?_, hm, rfl, ?_, ?_⟩
      · simp [scan_words, hnot, hslot, first_char]
      · intro x
        have : ¬ (ws.length ≤ x ∧ x < ws.length ∧ ws.getD x [] = c_str w) := by
          intro h; omega
        simp only [this, if_false, Int.add_zero]
      · constructor
        · intro h; exact Or.inl h
        · rintro (h | ⟨x, hx⟩)
          · exact h
          · omega

theorem exists_index_of_mem (ws : List (List Byte)) (c : List Byte) (h : c ∈ ws) :
    ∃ x, 0 ≤ x ∧ x < ws.length ∧ ws.getD x [] = c := by
  obtain ⟨x, hx, hc⟩ := List.getElem_of_mem h
  exact ⟨x, Nat.zero_le _, hx, by rw [getD_of_lt ws x hx, hc]⟩

/-- One execution of the body of the token loop of `unique_word_count`, on a table that
holds the C strings `ws` and has a free slot: when the token is stored, the count of its
slot grows by one and nothing else changes; when it is not, the token is written to the
first free slot and the count of that slot is set to `1`. -/
theorem record_eq (w : List Byte) (ws : List (List Byte))
    (hok : ∀ c ∈ ws, c_token c) (hd : ws.length < MAX_UNIQ_WORDS) (g : Shared)
    (hh : table_holds g.uniq_wlist ws) (hm : g.mutex_var = false) :
    ∃ g1 : Shared, record w (g, false) = .ok (.next (g1, false)) ∧ g1.mutex_var = false ∧
      (c_str w ∈ ws →
        g1.uniq_wlist.words = g.uniq_wlist.words ∧
        ∀ x, g1.uniq_wlist.ind_word_count x
          = g.uniq_wlist.ind_word_count x
            + (if x < ws.length ∧ ws.getD x [] = c_str w then 1 else 0)) ∧
      (c_str w ∉ ws →
        g1.uniq_wlist.words = Function.update g.uniq_wlist.words ws.length (c_str w) ∧
        g1.uniq_wlist.ind_word_count
          = Function.update g.uniq_wlist.ind_word_count ws.length 1) := by
  obtain ⟨g1, chk1, e1, e2, e3, e4, e5⟩ :=
    scan_words_eq w ws hok hd (MAX_UNIQ_WORDS + 1) 0 g false hh hm (Nat.zero_le _) (by omega)
  have e4' : ∀ x, g1.uniq_wlist.ind_word_count x
      = g.uniq_wlist.ind_word_count x
        + (if x < ws.length ∧ ws.getD x [] = c_str w then 1 else 0) := by
    intro x
    rw [e4 x]
    simp only [Nat.zero_le, true_and]
  by_cases hmem : c_str w ∈ ws
  · have hc : chk1 = true := e5.mpr (Or.inr (exists_index_of_mem ws _ hmem))
    subst hc
    refine ⟨g1, ?_, e2, fun _ => ⟨e3, e4'⟩, fun h => absurd hmem h⟩
    simp only [record, e1, insert_or_skip, e2, Bool.false_eq_true, if_false, if_true]
  · have hc : chk1 = false := by
      cases hchk : chk1 with
      | false => rfl
      | true =>
        exfalso
        rcases e5.mp hchk with h | ⟨x, _, hx, hxe⟩
        · exact absurd h (by decide)
        · apply hmem
          rw [← hxe, getD_of_lt ws x hx]
          exact List.getElem_mem hx
    subst hc
    have hslot : g1.uniq_wlist.words ws.length = [] := by
      rw [e3, hh _ hd, getD_of_le ws _ (le_refl _)]
    have hcnt : g1.uniq_wlist.ind_word_count = g.uniq_wlist.ind_word_count := by
      funext x
      rw [e4' x]
      have : ¬ (x < ws.length ∧ ws.getD x [] = c_str w) := by
        rintro ⟨hx, hxe⟩
        apply hmem
        rw [← hxe, getD_of_lt ws x hx]
        exact List.getElem_mem hx
      simp only [this, if_false, Int.add_zero]
    have h1 : ¬ ws.length > MAX_UNIQ_WORDS := by omega
    have h2 : ¬ MAX_UNIQ_WORDS ≤ ws.length := by omega
    refine ⟨{ g1 with uniq_wlist :=
        { words := Function.update g1.uniq_wlist.words ws.length
            (memmove (g1.uniq_wlist.words ws.length) w (strlen w)),
          ind_word_count := Function.update g1.uniq_wlist.ind_word_count ws.length 1 } },
      ?_, e2, fun h => absurd h hmem, fun _ => ⟨?_, ?_⟩⟩
    · simp only [record, e1, insert_or_skip, e2, Bool.false_eq_true, if_false, h1, h2]
    · simp only [hslot, memmove_empty, e3]
    · simp only [hcnt]

theorem table_holds_append (u u1 : uniq_words) (ws : List (List Byte)) (c : List Byte)
    (hh : table_holds u ws) (h1 : u1.words = Function.update u.words ws.length c) :
    table_holds u1 (ws ++ [c]) := by
  intro i hi
  rw [h1]
  by_cases hx : i = ws.length
  · subst hx
    simp [List.getD, List.getElem?_append_right]
  · rw [Function.update_noteq hx, hh i hi]
    by_cases hlt : i < ws.length
    · rw [getD_of_lt ws i hlt, getD_of_lt (ws ++ [c]) i (by simp; omega)]
      simp [List.getElem_append_left, hlt]
    · rw [getD_of_le ws i (by omega), getD_of_le (ws ++ [c]) i (by simp; omega)]

theorem table_holds_same (u u1 : uniq_words) (ws : List (List Byte))
    (hh : table_holds u ws) (h1 : u1.words = Function.update u.words ws.length []) :
    table_holds u1 ws := by
  intro i hi
  rw [h1]
  by_cases hx : i = ws.length
  · subst hx
    simp [getD_of_le ws _ (le_refl _)]
  · rw [Function.update_noteq hx, hh i hi]

/-- The loop of `main` that counts the entries: on a table whose counts differ from `-1` in
the first `d` slots and whose slot `d < MAX_UNIQ_WORDS` holds `-1`, it returns `d`. -/
theorem count_entries_eq (u : uniq_words) (d : Nat) (hd : d < MAX_UNIQ_WORDS)
    (h1 : ∀ i, i < d → u.ind_word_count i ≠ -1) (h2 : u.ind_word_count d = -1) :
    ∀ (fuel i tot : Nat), i ≤ d → d < i + fuel →
      count_entries u fuel i tot = .ok (tot + (d - i)) := by
  intro fuel
  induction fuel with
  | zero => intro i tot h3 h4; omega
  | succ n ih =>
    intro i tot h3 h4
    have hnot : ¬ MAX_UNIQ_WORDS ≤ i := by omega
    by_cases hi : i < d
    · have := h1 i hi
      simp only [count_entries, hnot, if_false, ne_eq, this, not_false_eq_true, if_true]
      rw [ih (i + 1) (tot + 1) (by omega) (by omega)]
      congr 1
      omega
    · have hid : i = d := by omega
      subst hid
      simp [count_entries, hnot, h2]

/-! ## unique_word_count and sequential runs -/

/-- The token loop on given reads, for a body that keeps an invariant `P`, indexed by the
list of the tokens recorded so far, on the tokens that satisfy `Q`. -/
theorem run_reads_inv {σ : Type} (body : List Byte → σ → Except Fault (Flow σ))
    (content : List Byte) (q : Nat) (P : List (List Byte) → σ → Prop) (Q : List Byte → Prop)
    (hstep : ∀ L s w, P L s → Q w → ∃ s1, body w s = .ok (.next s1) ∧ P (L ++ [w]) s1) :
    ∀ (R : List (Nat × List Byte)) (L : List (List Byte)) (buffer : List Byte) (s : σ)
      (owned : List Nat), (∀ r ∈ R, Q r.2) → P L s →
      ∃ buffer1 s1, run_reads body content q R buffer s owned
          = .ok ({ content := content, pos := q }, buffer1, s1, owned ++ R.map Prod.fst) ∧
        P (L ++ R.map Prod.snd) s1 := by
  intro R
  induction R with
  | nil =>
    intro L buffer s owned _ hP
    exact ⟨buffer, s, by simp [run_reads], by simpa using hP⟩
  | cons r rs ih =>
    intro L buffer s owned hQ hP
    obtain ⟨s1, hb, hP1⟩ := hstep L s r.2 hP (hQ r (List.mem_cons_self _ _))
    obtain ⟨b2, s2, h2, hP2⟩ := ih (L ++ [r.2]) r.2 s1 (owned ++ [r.1])
      (fun x hx => hQ x (List.mem_cons_of_mem _ hx)) hP1
    refine ⟨b2, s2, ?_, ?_⟩
    · simp only [run_reads, hb, h2, List.map_cons, List.append_assoc, List.singleton_append]
    · simpa using hP2

/-- What `unique_word_count` does for a worker whose token loop performs the reads `R`,
when the body keeps the invariant `P` on the tokens of `R`. -/
theorem unique_word_count_of_reads (content : List Byte) (hfit : fits_buffer content) (k : Nat)
    (t : thread_args) (ht : laid_out content k t) (R : List (Nat × List Byte))
    (hloop : ∀ (σ : Type) (body : List Byte → σ → Except Fault (Flow σ)) (buffer : List Byte)
      (s : σ) (owned : List Nat),
      token_loop body (bound content (k + 1) : Int) (content.length + 1)
          { content := content, pos := loop_start content k } buffer s owned
        = run_reads body content (loop_start content (k + 1)) R buffer s owned)
    (P : List (List Byte) → Shared → Prop) (Q : List Byte → Prop)
    (hstep : ∀ L g w, P L g → Q w →
      ∃ g1, record w (g, false) = .ok (.next (g1, false)) ∧ P (L ++ [w]) g1)
    (hQ : ∀ r ∈ R, Q r.2) (L : List (List Byte)) (g : Shared) (hP : P L g) :
    ∃ t1 g1, unique_word_count t g = .ok (t1, g1) ∧ P (L ++ R.map Prod.snd) g1 ∧
      t1.owned = t.owned ++ R.map Prod.fst := by
  obtain ⟨buffer, hb⟩ := hand_off_eq content hfit k t ht
  have hstep' : ∀ (L : List (List Byte)) (s : Shared × Bool) (w : List Byte),
      (s.2 = false ∧ P L s.1) → Q w →
      ∃ s1, record w s = .ok (.next s1) ∧ (s1.2 = false ∧ P (L ++ [w]) s1.1) := by
    rintro L ⟨g0, c0⟩ w ⟨hc, hp⟩ hq
    simp only at hc hp
    subst hc
    obtain ⟨g1, h1, h2⟩ := hstep L g0 w hp hq
    exact ⟨(g1, false), h1, rfl, h2⟩
  obtain ⟨b1, s1, h1, h2, h3⟩ :=
    run_reads_inv record content (loop_start content (k + 1))
      (fun L s => s.2 = false ∧ P L s.1) Q hstep' R L buffer (g, false) t.owned hQ ⟨rfl, hP⟩
  unfold unique_word_count
  simp only [hb, loop_fuel, ht.2.2.2, hloop, h1]
  exact ⟨_, _, rfl, h3, rfl⟩

/-- A sequential run of the workers listed in `order`: the body of the token loop is
applied to the reads of these workers, one worker after the other. -/
theorem run_unique_inv (content : List Byte) (hfit : fits_buffer content)
    (hsz : 3 * (content.length : Int) ≤ INT_MAX) (R : Nat → List (Nat × List Byte))
    (hloop : ∀ k, k < 3 → ∀ (σ : Type) (body : List Byte → σ → Except Fault (Flow σ))
      (buffer : List Byte) (s : σ) (owned : List Nat),
      token_loop body (bound content (k + 1) : Int) (content.length + 1)
          { content := content, pos := loop_start content k } buffer s owned
        = run_reads body content (loop_start content (k + 1)) (R k) buffer s owned)
    (P : List (List Byte) → Shared → Prop) (Q : List Byte → Prop)
    (hstep : ∀ L g w, P L g → Q w →
      ∃ g1, record w (g, false) = .ok (.next (g1, false)) ∧ P (L ++ [w]) g1)
    (hQ : ∀ k, k < 3 → ∀ r ∈ R k, Q r.2) :
    ∀ (order : List Nat), (∀ k ∈ order, k < 3) → ∀ (L : List (List Byte)) (g : Shared),
      P L g →
      ∃ g1, run_unique content order g = .ok g1 ∧
        P (L ++ order.flatMap (fun k => (R k).map Prod.snd)) g1 := by
  intro order
  induction order with
  | nil =>
    intro _ L g hP
    exact ⟨g, rfl, by simpa using hP⟩
  | cons k ks ih =>
    intro hk L g hP
    have hk3 : k < 3 := hk k (List.mem_cons_self _ _)
    obtain ⟨t1, g1, h1, h2, _⟩ :=
      unique_word_count_of_reads content hfit k _ (init_thread_laid_out content hsz k hk3)
        (R k) (hloop k hk3) P Q hstep (hQ k hk3) L g hP
    obtain ⟨g2, h3, h4⟩ := ih (fun x hx => hk x (List.mem_cons_of_mem _ hx))
      (L ++ (R k).map Prod.snd) g1 h2
    refine ⟨g2, ?_, ?_⟩
    · simp only [run_unique, h1, h3]
    · simpa [List.flatMap_cons, List.append_assoc] using h4

/-! ## Unique-word mode on files of C-string tokens -/

theorem tokens_at_mem : ∀ (n : Nat) (l : List Byte) (off : Nat), l.length ≤ n →
    ∀ t ∈ tokens_at off l, t.2 ≠ [] ∧ ∀ b ∈ t.2, b ∈ l := by
  intro n
  induction n with
  | zero =>
    intro l off hl t ht
    have : l = [] := List.length_eq_zero.mp (by omega)
    subst this
    simp [tokens_at_nil] at ht
  | succ n ih =>
    intro l off hl t ht
    cases l with
    | nil => simp [tokens_at_nil] at ht
    | cons b bs =>
      have hbs : bs.length ≤ n := by simpa using hl
      by_cases hb : isspace b = true
      · rw [tokens_at_cons_space off b bs hb] at ht
        obtain ⟨h1, h2⟩ := ih bs (off + 1) hbs t ht
        exact ⟨h1, fun x hx => List.mem_cons_of_mem _ (h2 x hx)⟩
      · have hf : isspace b = false := by simpa using hb
        rw [tokens_at_cons_nonspace off b bs hf] at ht
        rcases List.mem_cons.mp ht with ht | ht
        · subst ht
          refine ⟨by simp, ?_⟩
          intro x hx
          rcases List.mem_cons.mp hx with hx | hx
          · subst hx; exact List.mem_cons_self _ _
          · exact List.mem_cons_of_mem _ ((List.takeWhile_sublist nonspace).subset hx)
        · have hlen : (bs.dropWhile nonspace).length ≤ n :=
            le_trans (List.dropWhile_sublist nonspace).length_le hbs
          obtain ⟨h1, h2⟩ := ih _ _ hlen t ht
          exact ⟨h1, fun x hx =>
            List.mem_cons_of_mem _ ((List.dropWhile_sublist nonspace).subset (h2 x hx))⟩

/-- In a file without NUL bytes every token is a C string. -/
theorem tokens_c_token (content : List Byte) (hnul : (0 : Byte) ∉ content) :
    ∀ w ∈ tokens content, c_token w := by
  intro w hw
  obtain ⟨t, ht, rfl⟩ := List.mem_map.mp hw
  obtain ⟨h1, h2⟩ := tokens_at_mem content.length content 0 (le_refl _) t ht
  exact ⟨h1, fun h0 => hnul (h2 0 h0)⟩

theorem nodup_length_le_dedup (ws T : List (List Byte)) (hnd : ws.Nodup)
    (hsub : ∀ c ∈ ws, c ∈ T) : ws.length ≤ T.dedup.length := by
  rw [← List.toFinset_card_of_nodup hnd, ← List.card_toFinset]
  apply Finset.card_le_card
  intro c hc
  rw [List.mem_toFinset] at hc ⊢
  exact hsub c hc

theorem nodup_length_eq_dedup (ws T : List (List Byte)) (hnd : ws.Nodup)
    (hiff : ∀ c, c ∈ ws ↔ c ∈ T) : ws.length = T.dedup.length := by
  rw [← List.toFinset_card_of_nodup hnd, ← List.card_toFinset]
  congr 1
  ext c
  rw [List.mem_toFinset, List.mem_toFinset]
  exact hiff c

theorem recorded_init (T : List (List Byte)) : recorded T [] init_shared := by
  refine ⟨rfl, by simp, [], ?_, List.nodup_nil, by simp, by simp, by simp, ?_⟩
  · intro i _
    simp [init_shared, init_uniq_wlist, List.getD]
  · intro i _
    simp [init_shared, init_uniq_wlist]

theorem recorded_step (T : List (List Byte)) (hcap : T.dedup.length < MAX_UNIQ_WORDS)
    (L : List (List Byte)) (g : Shared) (w : List Byte) (hP : recorded T L g)
    (hQ : w ∈ T ∧ c_token w) :
    ∃ g1, record w (g, false) = .ok (.next (g1, false)) ∧ recorded T (L ++ [w]) g1 := by
  obtain ⟨hm, hL, ws, hh, hnd, hok, hiff, hpos, hneg⟩ := hP
  obtain ⟨hwT, hwc⟩ := hQ
  have hlen : ws.length < MAX_UNIQ_WORDS :=
    lt_of_le_of_lt (nodup_length_le_dedup ws T hnd (fun c hc => hL c ((hiff c).mp hc))) hcap
  obtain ⟨g1, h1, h2, h3, h4⟩ := record_eq w ws hok hlen g hh hm
  have hcs := c_str_of_c_token w hwc
  rw [hcs] at h3 h4
  have hL1 : ∀ x ∈ L ++ [w], x ∈ T := by
    intro x hx
    rcases List.mem_append.mp hx with hx | hx
    · exact hL x hx
    · rw [List.mem_singleton.mp hx]; exact hwT
  refine ⟨g1, h1, h2, hL1, ?_⟩
  by_cases hmem : w ∈ ws
  · obtain ⟨hw1, hc1⟩ := h3 hmem
    refine ⟨ws, ?_, hnd, hok, ?_, ?_, ?_⟩
    · intro i hi; rw [hw1]; exact hh i hi
    · intro c
      rw [hiff c, List.mem_append, List.mem_singleton]
      constructor
      · intro h; exact Or.inl h
      · rintro (h | h)
        · exact h
        · rw [h]; exact (hiff w).mp hmem
    · intro i hi
      rw [hc1 i]
      have := hpos i hi
      split <;> omega
    · intro i hi
      rw [hc1 i]
      have := hneg i hi
      have hn : ¬ (i < ws.length ∧ ws.getD i [] = w) := by intro h; omega
      simp only [hn, if_false]
      omega
  · obtain ⟨hw1, hc1⟩ := h4 hmem
    refine ⟨ws ++ [w], table_holds_append g.uniq_wlist g1.uniq_wlist ws w hh hw1, ?_, ?_, ?_, ?_,
      ?_⟩
    · rw [List.nodup_append]
      refine ⟨hnd, List.nodup_singleton w, ?_⟩
      intro x hx hx2
      rw [List.mem_singleton] at hx2
      exact hmem (hx2 ▸ hx)
    · intro c hc
      rcases List.mem_append.mp hc with hc | hc
      · exact hok c hc
      · rw [List.mem_singleton.mp hc]; exact hwc
    · intro c
      simp only [List.mem_append, List.mem_singleton, hiff c]
    · intro i hi
      rw [hc1]
      by_cases hx : i = ws.length
      · rw [hx, Function.update_same]
      · rw [Function.update_noteq hx]
        apply hpos
        simp only [List.length_append, List.length_cons, List.length_nil] at hi
        omega
    · intro i hi
      rw [hc1]
      simp only [List.length_append, List.length_cons, List.length_nil] at hi
      have hx : i ≠ ws.length := by omega
      rw [Function.update_noteq hx]
      exact hneg i (by omega)

/-- Unique-word mode on a file without NUL bytes, whose tokens fit the buffer, whose size
keeps the region products in range and which has fewer than `MAX_UNIQ_WORDS` distinct
tokens, with the workers run one after another in any order: the table ends up holding
every distinct token once, and `main` reports the number of distinct tokens. -/
theorem main_unique_eq (content : List Byte) (hfit : fits_buffer content)
    (hsz : 3 * (content.length : Int) ≤ INT_MAX) (hnul : (0 : Byte) ∉ content)
    (hcap : distinct_tokens content < MAX_UNIQ_WORDS)
    (order : List Nat) (horder : order.Perm [0, 1, 2]) :
    ∃ (g : Shared) (ws : List (List Byte)),
      run_unique content order init_shared = .ok g ∧
      table_holds g.uniq_wlist ws ∧ ws.Nodup ∧ (∀ c, c ∈ ws ↔ c ∈ tokens content) ∧
      (∀ i, i < ws.length → 1 ≤ g.uniq_wlist.ind_word_count i) ∧
      (∀ i, ws.length ≤ i → g.uniq_wlist.ind_word_count i = -1) ∧
      ws.length = distinct_tokens content ∧
      main_unique order content = .ok (distinct_tokens content) := by
  obtain ⟨R, hR, hk⟩ := workers_partition content hfit
  have hT : tokens content = (R 0).map Prod.snd ++ (R 1).map Prod.snd ++ (R 2).map Prod.snd := by
    simp [tokens, hR]
  have hctok := tokens_c_token content hnul
  have hQ : ∀ k, k < 3 → ∀ r ∈ R k, r.2 ∈ tokens content ∧ c_token r.2 := by
    intro k hk3 r hr
    have hmem : r.2 ∈ tokens content := by
      rw [hT]
      have hk' : k = 0 ∨ k = 1 ∨ k = 2 := by omega
      have hr2 : r.2 ∈ (R k).map Prod.snd := List.mem_map_of_mem _ hr
      rcases hk' with h | h | h <;> subst h <;> simp [hr2]
    exact ⟨hmem, hctok _ hmem⟩
  obtain ⟨g, hrun, hm, _, ws, hh, hnd, _, hiff, hpos, hneg⟩ :=
    run_unique_inv content hfit hsz R (fun k hk3 => (hk k hk3).2.2)
      (recorded (tokens content)) (fun w => w ∈ tokens content ∧ c_token w)
      (recorded_step (tokens content) hcap) hQ order
      (fun k hk0 => by
        have := (horder.mem_iff (a := k)).mp hk0
        simp at this
        omega)
      [] init_shared (recorded_init _)
  have hperm : (order.flatMap (fun k => (R k).map Prod.snd)).Perm (tokens content) := by
    have := List.Perm.flatMap_right (fun k => (R k).map Prod.snd) horder
    rw [hT]
    simpa [List.flatMap_cons] using this
  have hiff2 : ∀ c, c ∈ ws ↔ c ∈ tokens content := by
    intro c
    rw [hiff c, List.nil_append]
    exact hperm.mem_iff
  have hlen : ws.length = distinct_tokens content :=
    nodup_length_eq_dedup ws (tokens content) hnd hiff2
  refine ⟨g, ws, hrun, hh, hnd, hiff2, hpos, hneg, hlen, ?_⟩
  have hce := count_entries_eq g.uniq_wlist ws.length (by rw [hlen]; exact hcap)
    (fun i hi => by have := hpos i hi; omega) (hneg _ (le_refl _))
    (MAX_UNIQ_WORDS + 1) 0 0 (Nat.zero_le _) (by rw [hlen]; omega)
  unfold main_unique
  simp only [hrun, hce, Nat.zero_add, Nat.sub_zero, hlen]

/-! ## A file with more distinct tokens than the table has slots -/

theorem takeWhile_token_space (t rest : List Byte) (ht : ∀ b ∈ t, isspace b = false) :
    (t ++ 32 :: rest).takeWhile nonspace = t ∧
      (t ++ 32 :: rest).dropWhile nonspace = 32 :: rest := by
  induction t with
  | nil =>
    have h32 : nonspace (32 : Byte) = false := by decide
    simp [List.takeWhile_cons, List.dropWhile_cons, h32]
  | cons b bs ih =>
    have hb : nonspace b = true := by simp [nonspace, ht b (List.mem_cons_self _ _)]
    obtain ⟨h1, h2⟩ := ih (fun x hx => ht x (List.mem_cons_of_mem _ hx))
    simp [List.takeWhile_cons, List.dropWhile_cons, hb, h1, h2]

theorem tokens_at_token_space (off : Nat) (t rest : List Byte) (hne : t ≠ [])
    (ht : ∀ b ∈ t, isspace b = false) :
    tokens_at off (t ++ 32 :: rest) = (off, t) :: tokens_at (off + t.length + 1) rest := by
  cases t with
  | nil => exact absurd rfl hne
  | cons b bs =>
    obtain ⟨h1, h2⟩ := takeWhile_token_space bs rest (fun x hx => ht x (List.mem_cons_of_mem _ hx))
    rw [List.cons_append, tokens_at_cons_nonspace off b _ (ht b (List.mem_cons_self _ _)), h1, h2,
      tokens_at_cons_space _ 32 rest (by decide)]
    simp only [List.length_cons]
    have : off + 1 + bs.length + 1 = off + (bs.length + 1) + 1 := by omega
    rw [this]

theorem tokens_flatMap (ts : List (List Byte))
    (h : ∀ t ∈ ts, t ≠ [] ∧ ∀ b ∈ t, isspace b = false) : ∀ off : Nat,
    (tokens_at off (ts.flatMap (fun t => t ++ [32]))).map Prod.snd = ts := by
  induction ts with
  | nil => intro off; simp [tokens_at_nil]
  | cons t ts ih =>
    intro off
    obtain ⟨h1, h2⟩ := h t (List.mem_cons_self _ _)
    have e : (t :: ts).flatMap (fun t => t ++ [32])
        = t ++ 32 :: ts.flatMap (fun t => t ++ [32]) := by
      simp [List.flatMap_cons]
    rw [e, tokens_at_token_space off t _ h1 h2, List.map_cons,
      ih (fun x hx => h x (List.mem_cons_of_mem _ hx))]

theorem cap_token_val (i : Nat) (hi : i < MAX_UNIQ_WORDS + 1) :
    ((Fin.ofNat (33 + i / 101) : Byte).val = 33 + i / 101) ∧
      ((Fin.ofNat (33 + i % 101) : Byte).val = 33 + i % 101) := by
  unfold MAX_UNIQ_WORDS at hi
  have h1 : i / 101 < 100 := by omega
  have h2 : i % 101 < 101 := Nat.mod_lt _ (by omega)
  constructor
  · show (33 + i / 101) % (255 + 1) = 33 + i / 101
    omega
  · show (33 + i % 101) % (255 + 1) = 33 + i % 101
    omega

theorem cap_token_bytes (i : Nat) (hi : i < MAX_UNIQ_WORDS + 1) :
    ∀ b ∈ cap_token i, 33 ≤ b.val := by
  obtain ⟨h1, h2⟩ := cap_token_val i hi
  intro b hb
  simp only [cap_token, List.mem_cons, List.mem_singleton, List.not_mem_nil, or_false] at hb
  rcases hb with hb | hb
  · subst hb; omega
  · subst hb; omega

theorem cap_token_nonspace (i : Nat) (hi : i < MAX_UNIQ_WORDS + 1) :
    cap_token i ≠ [] ∧ ∀ b ∈ cap_token i, isspace b = false := by
  refine ⟨by simp [cap_token], ?_⟩
  intro b hb
  have := cap_token_bytes i hi b hb
  simp only [isspace, Bool.or_eq_false_iff, Bool.and_eq_false_iff, decide_eq_false_iff_not]
  omega

theorem cap_token_c_token (i : Nat) (hi : i < MAX_UNIQ_WORDS + 1) : c_token (cap_token i) := by
  refine ⟨by simp [cap_token], ?_⟩
  intro h0
  have := cap_token_bytes i hi 0 h0
  simp at this

theorem cap_token_inj (i j : Nat) (hi : i < MAX_UNIQ_WORDS + 1) (hj : j < MAX_UNIQ_WORDS + 1)
    (h : cap_token i = cap_token j) : i = j := by
  obtain ⟨a1, a2⟩ := cap_token_val i hi
  obtain ⟨b1, b2⟩ := cap_token_val j hj
  simp only [cap_token, List.cons.injEq, and_true] at h
  have e1 := congrArg Fin.val h.1
  have e2 := congrArg Fin.val h.2
  rw [a1, b1] at e1
  rw [a2, b2] at e2
  omega

theorem cap_tokens_nodup (n : Nat) (hn : n ≤ MAX_UNIQ_WORDS + 1) :
    ((List.range n).map cap_token).Nodup := by
  apply List.Nodup.map_on _ (List.nodup_range _)
  intro x hx y hy hxy
  exact cap_token_inj x y (by have := List.mem_range.mp hx; omega)
    (by have := List.mem_range.mp hy; omega) hxy

theorem cap_tokens_c_token (n : Nat) (hn : n ≤ MAX_UNIQ_WORDS + 1) :
    ∀ c ∈ (List.range n).map cap_token, c_token c := by
  intro c hc
  obtain ⟨i, hi, rfl⟩ := List.mem_map.mp hc
  exact cap_token_c_token i (by have := List.mem_range.mp hi; omega)

theorem tokens_cap_file : tokens cap_file = (List.range (MAX_UNIQ_WORDS + 1)).map cap_token := by
  unfold tokens cap_file
  apply tokens_flatMap
  intro t ht
  obtain ⟨i, hi, rfl⟩ := List.mem_map.mp ht
  exact cap_token_nonspace i (List.mem_range.mp hi)

theorem distinct_tokens_cap_file : distinct_tokens cap_file = MAX_UNIQ_WORDS + 1 := by
  unfold distinct_tokens
  rw [tokens_cap_file, (cap_tokens_nodup _ (le_refl _)).dedup]
  simp

theorem length_flatMap_three (ts : List (List Byte)) (h : ∀ t ∈ ts, t.length = 2) :
    (ts.flatMap (fun t => t ++ [32])).length = 3 * ts.length := by
  induction ts with
  | nil => simp
  | cons t ts ih =>
    have h1 := h t (List.mem_cons_self _ _)
    have h2 := ih (fun x hx => h x (List.mem_cons_of_mem _ hx))
    simp only [List.flatMap_cons, List.length_append, List.length_cons, List.length_nil, h1, h2]
    omega

theorem length_cap_file : cap_file.length = 3 * (MAX_UNIQ_WORDS + 1) := by
  unfold cap_file
  rw [length_flatMap_three]
  · simp
  · intro t ht
    obtain ⟨i, _, rfl⟩ := List.mem_map.mp ht
    simp [cap_token]

theorem size_cap_file : 3 * (cap_file.length : Int) ≤ INT_MAX := by
  rw [length_cap_file]
  unfold MAX_UNIQ_WORDS INT_MAX
  norm_num

theorem fits_buffer_cap_file : fits_buffer cap_file := by
  intro t ht
  rw [tokens_cap_file] at ht
  obtain ⟨i, _, rfl⟩ := List.mem_map.mp ht
  simp [cap_token, BUF_SIZE]

theorem no_nul_cap_file : (0 : Byte) ∉ cap_file := by
  intro h
  unfold cap_file at h
  obtain ⟨t, ht, hb⟩ := List.mem_flatMap.mp h
  obtain ⟨i, hi, rfl⟩ := List.mem_map.mp ht
  rcases List.mem_append.mp hb with hb | hb
  · have := cap_token_bytes i (List.mem_range.mp hi) 0 hb
    simp at this
  · simp at hb

theorem table_holds_cap_table (n : Nat) :
    table_holds (cap_table n).uniq_wlist ((List.range n).map cap_token) := by
  intro i _
  by_cases hi : i < n
  · rw [getD_of_lt _ i (by simpa using hi)]
    simp [cap_table, hi]
  · rw [getD_of_le _ i (by simpa using hi)]
    simp [cap_table, hi]

/-! ## The tokens a worker's loop hands to its body -/

/-- The `for` loop of `unique_word_count` on a full table: the scan walks over all
`MAX_UNIQ_WORDS` slots and then reads `uniq_wlist.words[MAX_UNIQ_WORDS]`. -/
theorem scan_words_full (w : List Byte) (ws : List (List Byte))
    (hok : ∀ c ∈ ws, c_token c) (hd : ws.length = MAX_UNIQ_WORDS) :
    ∀ (fuel i : Nat) (g : Shared) (chk : Bool),
      table_holds g.uniq_wlist ws → g.mutex_var = false →
      i ≤ MAX_UNIQ_WORDS → MAX_UNIQ_WORDS < i + fuel →
      scan_words w fuel i g chk = .error .out_of_bounds := by
  intro fuel
  induction fuel with
  | zero => intro i g chk _ _ h1 h2; omega
  | succ n ih =>
    intro i g chk hh hm h1 h2
    by_cases hi : i < MAX_UNIQ_WORDS
    · have hnot : ¬ MAX_UNIQ_WORDS ≤ i := by omega
      have hil : i < ws.length := by omega
      have hslot : g.uniq_wlist.words i = ws[i] := by
        rw [hh i hi, getD_of_lt ws i hil]
      have htok : c_token ws[i] := hok _ (List.getElem_mem hil)
      have hfc : first_char (g.uniq_wlist.words i) ≠ 0 := by
        rw [hslot]; exact first_char_of_c_token _ htok
      by_cases hs : strcmp_zero w (g.uniq_wlist.words i) = true
      · have := ih (i + 1)
          { uniq_wlist :=
              { words := g.uniq_wlist.words,
                ind_word_count :=
                  Function.update g.uniq_wlist.ind_word_count i
                    (g.uniq_wlist.ind_word_count i + 1) },
            mutex_var := false }
          true hh rfl (by omega) (by omega)
        simp only [scan_words, hnot, if_false, ne_eq, hfc, not_false_eq_true, if_true, hs, hm,
          Bool.false_eq_true]
        exact this
      · have hs' : strcmp_zero w (g.uniq_wlist.words i) = false := by simpa using hs
        have := ih (i + 1) g chk hh hm (by omega) (by omega)
        simp only [scan_words, hnot, if_false, ne_eq, hfc, not_false_eq_true, if_true, hs',
          Bool.false_eq_true]
        exact this
    · have hge : MAX_UNIQ_WORDS ≤ i := by omega
      simp [scan_words, hge]

theorem record_full (w : List Byte) (ws : List (List Byte))
    (hok : ∀ c ∈ ws, c_token c) (hd : ws.length = MAX_UNIQ_WORDS) (g : Shared)
    (hh : table_holds g.uniq_wlist ws) (hm : g.mutex_var = false) :
    record w (g, false) = .error .out_of_bounds := by
  have := scan_words_full w ws hok hd (MAX_UNIQ_WORDS + 1) 0 g false hh hm (Nat.zero_le _)
    (by omega)
  simp only [record, this]

theorem recorded_c_str_init : recorded_c_str [] init_shared := by
  refine ⟨rfl, [], ?_, List.nodup_nil, by simp, by simp, by simp, by simp, ?_, ?_, by simp⟩
  · intro i _
    simp [init_shared, init_uniq_wlist, List.getD]
  · intro i _
    simp [init_shared, init_uniq_wlist]
  · left
    simp [init_shared, init_uniq_wlist]

/-- One execution of the body of `unique_word_count` in a sequential run: on a full table
the scan leaves the arrays; otherwise the body falls through to the loop test and keeps
the invariant. -/
theorem record_class (L : List (List Byte)) (g : Shared) (w : List Byte)
    (hP : recorded_c_str L g) :
    record w (g, false) = .error .out_of_bounds ∨
    ∃ g1, record w (g, false) = .ok (.next (g1, false)) ∧ recorded_c_str (L ++ [w]) g1 := by
  obtain ⟨hm, ws, hh, hnd, hok, hsrc, hle, hpos, hneg, hfree, hall⟩ := hP
  by_cases hfull : ws.length = MAX_UNIQ_WORDS
  · exact Or.inl (record_full w ws hok hfull g hh hm)
  right
  have hlen : ws.length < MAX_UNIQ_WORDS := by omega
  obtain ⟨g1, h1, h2, h3, h4⟩ := record_eq w ws hok hlen g hh hm
  refine ⟨g1, h1, h2, ?_⟩
  have hsrc1 : ∀ c ∈ ws, ∃ x ∈ L ++ [w], c_str x = c := by
    intro c hc
    obtain ⟨x, hx, hxc⟩ := hsrc c hc
    exact ⟨x, List.mem_append_left _ hx, hxc⟩
  by_cases hmem : c_str w ∈ ws
  · obtain ⟨hw1, hc1⟩ := h3 hmem
    refine ⟨ws, ?_, hnd, hok, hsrc1, hle, ?_, ?_, ?_, ?_⟩
    · intro i hi; rw [hw1]; exact hh i hi
    · intro i hi
      rw [hc1 i]
      have := hpos i hi
      split <;> omega
    · intro i hi
      rw [hc1 i]
      have hn : ¬ (i < ws.length ∧ ws.getD i [] = c_str w) := by intro h; omega
      simp only [hn, if_false, Int.add_zero]
      exact hneg i hi
    · have hn : ¬ (ws.length < ws.length ∧ ws.getD ws.length [] = c_str w) := by
        intro h; omega
      rw [hc1 ws.length]
      simp only [hn, if_false, Int.add_zero]
      rcases hfree with h | ⟨h, x, hx, hxc⟩
      · exact Or.inl h
      · exact Or.inr ⟨h, x, List.mem_append_left _ hx, hxc⟩
    · intro x hx
      rcases List.mem_append.mp hx with hx | hx
      · exact hall x hx
      · rw [List.mem_singleton.mp hx]; exact Or.inr hmem
  · obtain ⟨hw1, hc1⟩ := h4 hmem
    by_cases hemp : c_str w = []
    · rw [hemp] at hw1
      refine ⟨ws, table_holds_same g.uniq_wlist g1.uniq_wlist ws hh hw1, hnd, hok, hsrc1, hle, ?_,
        ?_, ?_, ?_⟩
      · intro i hi
        rw [hc1, Function.update_noteq (by omega)]
        exact hpos i hi
      · intro i hi
        rw [hc1, Function.update_noteq (by omega)]
        exact hneg i hi
      · right
        rw [hc1, Function.update_same]
        exact ⟨rfl, w, by simp, hemp⟩
      · intro x hx
        rcases List.mem_append.mp hx with hx | hx
        · exact hall x hx
        · rw [List.mem_singleton.mp hx]; exact Or.inl hemp
    · refine ⟨ws ++ [c_str w],
        table_holds_append g.uniq_wlist g1.uniq_wlist ws (c_str w) hh hw1, ?_, ?_, ?_, ?_, ?_, ?_,
        ?_, ?_⟩
      · rw [List.nodup_append]
        refine ⟨hnd, List.nodup_singleton _, ?_⟩
        intro x hx hx2
        rw [List.mem_singleton] at hx2
        exact hmem (hx2 ▸ hx)
      · intro c hc
        rcases List.mem_append.mp hc with hc | hc
        · exact hok c hc
        · rw [List.mem_singleton.mp hc]; exact c_token_c_str w hemp
      · intro c hc
        rcases List.mem_append.mp hc with hc | hc
        · exact hsrc1 c hc
        · exact ⟨w, by simp, (List.mem_singleton.mp hc).symm⟩
      · simp only [List.length_append, List.length_cons, List.length_nil]
        omega
      · intro i hi
        simp only [List.length_append, List.length_cons, List.length_nil] at hi
        rw [hc1]
        by_cases hx : i = ws.length
        · rw [hx, Function.update_same]
        · rw [Function.update_noteq hx]
          exact hpos i (by omega)
      · intro i hi
        simp only [List.length_append, List.length_cons, List.length_nil] at hi
        rw [hc1, Function.update_noteq (by omega)]
        exact hneg i (by omega)
      · left
        simp only [List.length_append, List.length_cons, List.length_nil]
        rw [hc1, Function.update_noteq (by omega)]
        exact hneg _ (by omega)
      · intro x hx
        rcases List.mem_append.mp hx with hx | hx
        · exact (hall x hx).imp id (fun h => List.mem_append_left _ h)
        · rw [List.mem_singleton.mp hx]
          exact Or.inr (List.mem_append_right _ (List.mem_singleton_self _))

/-- The token loop on given reads, for a body that on every token either leaves the
arrays or falls through and keeps the invariant `P`. -/
theorem run_reads_class {σ : Type} (body : List Byte → σ → Except Fault (Flow σ))
    (content : List Byte) (q : Nat) (P : List (List Byte) → σ → Prop)
    (hstep : ∀ L s w, P L s →
      body w s = .error .out_of_bounds ∨ ∃ s1, body w s = .ok (.next s1) ∧ P (L ++ [w]) s1) :
    ∀ (R : List (Nat × List Byte)) (L : List (List Byte)) (buffer : List Byte) (s : σ)
      (owned : List Nat), P L s →
      run_reads body content q R buffer s owned = .error .out_of_bounds ∨
      ∃ buffer1 s1, run_reads body content q R buffer s owned
          = .ok ({ content := content, pos := q }, buffer1, s1, owned ++ R.map Prod.fst) ∧
        P (L ++ R.map Prod.snd) s1 := by
  intro R
  induction R with
  | nil =>
    intro L buffer s owned hP
    exact Or.inr ⟨buffer, s, by simp [run_reads], by simpa using hP⟩
  | cons r rs ih =>
    intro L buffer s owned hP
    rcases hstep L s r.2 hP with he | ⟨s1, hb, hP1⟩
    · left
      simp only [run_reads, he]
    · rcases ih (L ++ [r.2]) r.2 s1 (owned ++ [r.1]) hP1 with h2 | ⟨b2, s2, h2, hP2⟩
      · left
        simp only [run_reads, hb, h2]
      · right
        refine ⟨b2, s2, ?_, ?_⟩
        · simp only [run_reads, hb, h2, List.map_cons, List.append_assoc, List.singleton_append]
        · simpa using hP2

theorem unique_word_count_class (content : List Byte) (hfit : fits_buffer content) (k : Nat)
    (t : thread_args) (ht : laid_out content k t) (R : List (Nat × List Byte))
    (hloop : ∀ (σ : Type) (body : List Byte → σ → Except Fault (Flow σ)) (buffer : List Byte)
      (s : σ) (owned : List Nat),
      token_loop body (bound content (k + 1) : Int) (content.length + 1)
          { content := content, pos := loop_start content k } buffer s owned
        = run_reads body content (loop_start content (k + 1)) R buffer s owned)
    (L : List (List Byte)) (g : Shared) (hP : recorded_c_str L g) :
    unique_word_count t g = .error .out_of_bounds ∨
    ∃ t1 g1, unique_word_count t g = .ok (t1, g1) ∧
      recorded_c_str (L ++ R.map Prod.snd) g1 := by
  obtain ⟨buffer, hb⟩ := hand_off_eq content hfit k t ht
  have hstep : ∀ (L : List (List Byte)) (s : Shared × Bool) (w : List Byte),
      (s.2 = false ∧ recorded_c_str L s.1) →
      record w s = .error .out_of_bounds ∨
      ∃ s1, record w s = .ok (.next s1) ∧ (s1.2 = false ∧ recorded_c_str (L ++ [w]) s1.1) := by
    rintro L ⟨g0, c0⟩ w ⟨hc, hp⟩
    simp only at hc hp
    subst hc
    rcases record_class L g0 w hp with h | ⟨g1, h1, h2⟩
    · exact Or.inl h
    · exact Or.inr ⟨(g1, false), h1, rfl, h2⟩
  unfold unique_word_count
  rcases run_reads_class record content (loop_start content (k + 1))
      (fun L s => s.2 = false ∧ recorded_c_str L s.1) hstep R L buffer (g, false) t.owned
      ⟨rfl, hP⟩ with h1 | ⟨b1, s1, h1, _, h3⟩
  · left
    simp only [hb, loop_fuel, ht.2.2.2, hloop, h1]
  · right
    simp only [hb, loop_fuel, ht.2.2.2, hloop, h1]
    exact ⟨_, _, rfl, h3⟩

/-- A sequential run of the workers listed in `order` on a file whose tokens fit the
buffer and whose size keeps the region products in range: either some access leaves the
arrays, or all workers return and the table holds the C strings of the tokens. -/
theorem run_unique_class (content : List Byte) (hfit : fits_buffer content)
    (hsz : 3 * (content.length : Int) ≤ INT_MAX) (R : Nat → List (Nat × List Byte))
    (hloop : ∀ k, k < 3 → ∀ (σ : Type) (body : List Byte → σ → Except Fault (Flow σ))
      (buffer : List Byte) (s : σ) (owned : List Nat),
      token_loop body (bound content (k + 1) : Int) (content.length + 1)
          { content := content, pos := loop_start content k } buffer s owned
        = run_reads body content (loop_start content (k + 1)) (R k) buffer s owned) :
    ∀ (order : List Nat), (∀ k ∈ order, k < 3) → ∀ (L : List (List Byte)) (g : Shared),
      recorded_c_str L g →
      run_unique content order g = .error .out_of_bounds ∨
      ∃ g1, run_unique content order g = .ok g1 ∧
        recorded_c_str (L ++ order.flatMap (fun k => (R k).map Prod.snd)) g1 := by
  intro order
  induction order with
  | nil =>
    intro _ L g hP
    exact Or.inr ⟨g, rfl, by simpa using hP⟩
  | cons k ks ih =>
    intro hk L g hP
    have hk3 : k < 3 := hk k (List.mem_cons_self _ _)
    rcases unique_word_count_class content hfit k _ (init_thread_laid_out content hsz k hk3)
        (R k) (hloop k hk3) L g hP with h1 | ⟨t1, g1, h1, h2⟩
    · left
      simp only [run_unique, h1]
    · rcases ih (fun x hx => hk x (List.mem_cons_of_mem _ hx))
          (L ++ (R k).map Prod.snd) g1 h2 with h3 | ⟨g2, h3, h4⟩
      · left
        simp only [run_unique, h1, h3]
      · right
        refine ⟨g2, ?_, ?_⟩
        · simp only [run_unique, h1, h3]
        · simpa [List.flatMap_cons, List.append_assoc] using h4

/-- The loop of `main` on a table all of whose counts differ from `-1`: it walks over all
`MAX_UNIQ_WORDS` counts and then reads `uniq_wlist.ind_word_count[MAX_UNIQ_WORDS]`. -/
theorem count_entries_full (u : uniq_words)
    (h : ∀ i, i < MAX_UNIQ_WORDS → u.ind_word_count i ≠ -1) :
    ∀ (fuel i tot : Nat), i ≤ MAX_UNIQ_WORDS → MAX_UNIQ_WORDS < i + fuel →
      count_entries u fuel i tot = .error .out_of_bounds := by
  intro fuel
  induction fuel with
  | zero => intro i tot h1 h2; omega
  | succ k ih =>
    intro i tot h1 h2
    by_cases hi : i = MAX_UNIQ_WORDS
    · have hge : MAX_UNIQ_WORDS ≤ i := by omega
      simp [count_entries, hge]
    · have hlt : i < MAX_UNIQ_WORDS := by omega
      have hnot : ¬ MAX_UNIQ_WORDS ≤ i := by omega
      have hc := h i hlt
      simp only [count_entries, hnot, if_false, ne_eq, hc, not_false_eq_true, if_true]
      exact ih (i + 1) (tot + 1) (by omega) (by omega)

/-- The index at which the `for` loop of `unique_word_count` ends is inside the arrays. -/
theorem scan_words_lt (w : List Byte) :
    ∀ (fuel i : Nat) (g : Shared) (chk : Bool) (res : Nat × Shared × Bool),
      scan_words w fuel i g chk = .ok res → res.1 < MAX_UNIQ_WORDS := by
  intro fuel
  induction fuel with
  | zero => intro i g chk res h; simp [scan_words] at h
  | succ k ih =>
    intro i g chk res h
    by_cases hge : MAX_UNIQ_WORDS ≤ i
    · simp [scan_words, hge] at h
    · by_cases hfc : first_char (g.uniq_wlist.words i) = 0
      · simp only [scan_words, hge, if_false, ne_eq, hfc, not_true_eq_false,
          Except.ok.injEq] at h
        rw [← h]
        exact Nat.lt_of_not_le hge
      · by_cases hs : strcmp_zero w (g.uniq_wlist.words i) = true
        · by_cases hm : g.mutex_var = true
          · simp [scan_words, hge, hfc, hs, hm] at h
          · simp only [scan_words, hge, if_false, ne_eq, hfc, not_false_eq_true, if_true, hs,
              hm, Bool.false_eq_true] at h
            exact ih _ _ _ _ h
        · simp only [scan_words, hge, if_false, ne_eq, hfc, not_false_eq_true, if_true, hs,
            Bool.false_eq_true] at h
          exact ih _ _ _ _ h

/-- The body of the token loop of `unique_word_count` never executes the `return` of the
capacity guard `if (i > MAX_UNIQ_WORDS)`: the scan in front of it ends at an index below
`MAX_UNIQ_WORDS` or leaves the arrays. -/
theorem record_never_ret (w : List Byte) (s r : Shared × Bool) :
    record w s ≠ .ok (.ret r) := by
  intro h
  unfold record at h
  cases hs : scan_words w (MAX_UNIQ_WORDS + 1) 0 s.1 s.2 with
  | error e => simp [hs] at h
  | ok res =>
    obtain ⟨i, g, chk⟩ := res
    have hlt : i < MAX_UNIQ_WORDS := scan_words_lt w _ _ _ _ _ hs
    simp only [hs] at h
    unfold insert_or_skip at h
    have h1 : ¬ i > MAX_UNIQ_WORDS := by omega
    have h2 : ¬ MAX_UNIQ_WORDS ≤ i := by omega
    by_cases hm : g.mutex_var = true
    · simp [hm] at h
    · by_cases hc : chk = true
      · simp [hm, hc] at h
      · simp [hm, hc, h1, h2] at h

/-- Unique-word mode on a file of C-string tokens with at least `MAX_UNIQ_WORDS` distinct
tokens, the workers run one after another: the run ends with an access outside the arrays
of `uniq_wlist`, in the scan of a worker or in the counting loop of `main`. -/
theorem main_unique_full (content : List Byte) (hfit : fits_buffer content)
    (hsz : 3 * (content.length : Int) ≤ INT_MAX) (hnul : (0 : Byte) ∉ content)
    (hcap : MAX_UNIQ_WORDS ≤ distinct_tokens content)
    (order : List Nat) (horder : order.Perm [0, 1, 2]) :
    main_unique order content = .error .out_of_bounds := by
  obtain ⟨R, hR, hk⟩ := workers_partition content hfit
  have hT : tokens content = (R 0).map Prod.snd ++ (R 1).map Prod.snd ++ (R 2).map Prod.snd := by
    simp [tokens, hR]
  have hperm : (order.flatMap (fun k => (R k).map Prod.snd)).Perm (tokens content) := by
    have := List.Perm.flatMap_right (fun k => (R k).map Prod.snd) horder
    rw [hT]
    simpa [List.flatMap_cons] using this
  unfold main_unique
  rcases run_unique_class content hfit hsz R (fun k hk3 => (hk k hk3).2.2) order
      (fun k hk0 => by
        have := (horder.mem_iff (a := k)).mp hk0
        simp at this
        omega)
      [] init_shared recorded_c_str_init with hrun | ⟨g, hrun, hinv⟩
  · simp only [hrun]
  · simp only [hrun]
    rw [List.nil_append] at hinv
    obtain ⟨_, ws, _, hnd, _, hsrc, hle, hpos, _, _, hall⟩ := hinv
    have htok := tokens_c_token content hnul
    have hiff : ∀ c, c ∈ ws ↔ c ∈ tokens content := by
      intro c
      constructor
      · intro hc
        obtain ⟨x, hx, hxc⟩ := hsrc c hc
        have hx' := (hperm.mem_iff (a := x)).mp hx
        rw [c_str_of_c_token x (htok x hx')] at hxc
        rw [← hxc]
        exact hx'
      · intro hc
        have hc' := (hperm.mem_iff (a := c)).mpr hc
        have hcs := c_str_of_c_token c (htok c hc)
        rcases hall c hc' with h | h
        · rw [hcs] at h
          exact absurd h (htok c hc).1
        · rw [hcs] at h
          exact h
    have hlen : ws.length = distinct_tokens content :=
      nodup_length_eq_dedup ws (tokens content) hnd hiff
    have hfull : ws.length = MAX_UNIQ_WORDS := by omega
    apply count_entries_full g.uniq_wlist _ (MAX_UNIQ_WORDS + 1) 0 0 (Nat.zero_le _) (by omega)
    intro i hi
    have := hpos i (by omega)
    omega

/-! ## Word mode outside the limits -/

theorem fscanf_s_overrun (content buffer : List Byte) (hne : content ≠ [])
    (hall : ∀ x ∈ content, isspace x = false) (hlen : BUF_SIZE ≤ content.length) :
    fscanf_s { content := content, pos := 0 } buffer = .error .buffer_overrun := by
  have hd : content.dropWhile isspace = content := by
    cases content with
    | nil => exact absurd rfl hne
    | cons b bs => rw [List.dropWhile_cons_of_neg (by simp [hall b (List.mem_cons_self _ _)])]
  have ht : content.takeWhile nonspace = content :=
    List.takeWhile_eq_self_iff.mpr (fun x hx => by simp [nonspace, hall x hx])
  have he : content.isEmpty = false := by
    cases content with
    | nil => exact absurd rfl hne
    | cons b bs => rfl
  unfold fscanf_s
  simp only [List.drop_zero, hd, ht, he, Bool.false_eq_true, if_false, hlen, if_true]

theorem tokens_of_nonspace (content : List Byte) (hne : content ≠ [])
    (hall : ∀ x ∈ content, isspace x = false) : tokens content = [content] := by
  cases content with
  | nil => exact absurd rfl hne
  | cons b bs =>
    have ht : bs.takeWhile nonspace = bs :=
      List.takeWhile_eq_self_iff.mpr
        (fun x hx => by simp [nonspace, hall x (List.mem_cons_of_mem _ hx)])
    have hd : bs.dropWhile nonspace = [] :=
      List.dropWhile_eq_nil_iff.mpr
        (fun x hx => by simp [nonspace, hall x (List.mem_cons_of_mem _ hx)])
    unfold tokens
    rw [tokens_at_cons_nonspace 0 b bs (hall b (List.mem_cons_self _ _)), ht, hd, tokens_at_nil]
    rfl

/-- Word mode on a file that is one token too long for `buffer`: the first `%s`
conversion of worker 0 writes past the end of its buffer. -/
theorem main_words_overrun (content : List Byte) (hne : content ≠ [])
    (hall : ∀ x ∈ content, isspace x = false) (hlen : BUF_SIZE ≤ content.length)
    (hsz : 3 * (content.length : Int) ≤ INT_MAX) :
    main_words content = .error .buffer_overrun := by
  obtain ⟨h1, h2, h3, h4⟩ := init_thread_laid_out content hsz 0 (by omega)
  have hfs := fscanf_s_overrun content (init_thread content 0).buffer hne hall hlen
  have h0 : count_words (init_thread content 0) = .error .buffer_overrun := by
    unfold count_words hand_off
    rw [h1, h2, h3, h4, bound_zero]
    have hreg : ftell { content := content, pos := 0 } ≤ ((bound content (0 + 1) : Nat) : Int) := by
      simp only [ftell]
      exact_mod_cast Nat.zero_le _
    simp only [ne_eq, not_true_eq_false, if_false, fseek, Nat.cast_zero, lt_self_iff_false,
      Int.toNat_zero, loop_fuel, token_loop, hreg, if_true, hfs]
  unfold main_words
  rw [init_thread_args_eq]
  simp only [run_workers, h0]

/-- Word mode on a file that is one token of `n` bytes `a`, `n` above the 255 bytes that
fit `buffer`. -/
theorem main_words_replicate (n : Nat) (h1 : BUF_SIZE ≤ n) (h2 : 3 * (n : Int) ≤ INT_MAX) :
    (tokens (List.replicate n (97 : Byte))).length = 1 ∧
    main_words (List.replicate n (97 : Byte)) = .error .buffer_overrun := by
  have hne : List.replicate n (97 : Byte) ≠ [] := by
    intro h
    have := congrArg List.length h
    rw [List.length_replicate, List.length_nil] at this
    unfold BUF_SIZE at h1
    omega
  have hall : ∀ x ∈ List.replicate n (97 : Byte), isspace x = false := by
    intro x hx
    rw [List.eq_of_mem_replicate hx]
    decide
  constructor
  · rw [tokens_of_nonspace _ hne hall]
    rfl
  · apply main_words_overrun _ hne hall
    · rw [List.length_replicate]; exact h1
    · rw [List.length_replicate]; exact h2

theorem dropWhile_spaces (n : Nat) (l : List Byte) :
    (List.replicate n (32 : Byte) ++ l).dropWhile isspace = l.dropWhile isspace := by
  induction n with
  | zero => rfl
  | succ k ih =>
    rw [List.replicate_succ, List.cons_append, List.dropWhile_cons_of_pos (by decide)]
    exact ih

theorem takeWhile_spaces (n : Nat) (l : List Byte) :
    ((List.replicate n (32 : Byte) ++ l).takeWhile isspace).length
      = n + (l.takeWhile isspace).length := by
  induction n with
  | zero => simp
  | succ k ih =>
    rw [List.replicate_succ, List.cons_append, List.takeWhile_cons_of_pos (by decide),
      List.length_cons, ih]
    omega

theorem drop_spaces (n p : Nat) (l : List Byte) (hp : p ≤ n) :
    (List.replicate n (32 : Byte) ++ l).drop p = List.replicate (n - p) (32 : Byte) ++ l := by
  rw [List.drop_append_of_le_length (by rw [List.length_replicate]; exact hp),
    List.drop_replicate]

theorem tokens_at_spaces (n : Nat) (l : List Byte) : ∀ off : Nat,
    tokens_at off (List.replicate n (32 : Byte) ++ l) = tokens_at (off + n) l := by
  induction n with
  | zero => intro off; rfl
  | succ k ih =>
    intro off
    rw [List.replicate_succ, List.cons_append, tokens_at_cons_space off 32 _ (by decide), ih]
    have : off + 1 + k = off + (k + 1) := by omega
    rw [this]

/-- One `%s` conversion issued inside the leading white space of a file that is `n`
spaces followed by the token `a` and more: it stores `a` and stops behind it. -/
theorem fscanf_s_spaces (n p : Nat) (rest buffer : List Byte) (hp : p ≤ n) :
    fscanf_s { content := List.replicate n (32 : Byte) ++ 97 :: 32 :: rest, pos := p } buffer
      = .ok (1, [97],
          { content := List.replicate n (32 : Byte) ++ 97 :: 32 :: rest, pos := n + 1 }) := by
  have hd : ((List.replicate n (32 : Byte) ++ 97 :: 32 :: rest).drop p).dropWhile isspace
      = 97 :: 32 :: rest := by
    rw [drop_spaces n p _ hp, dropWhile_spaces]
    rfl
  have ht : (((List.replicate n (32 : Byte) ++ 97 :: 32 :: rest).drop p).takeWhile isspace).length
      = n - p := by
    rw [drop_spaces n p _ hp, takeWhile_spaces]
    rfl
  have hk : (97 :: 32 :: rest : List Byte).takeWhile nonspace = [97] := rfl
  have hend : scan_end (List.replicate n (32 : Byte) ++ 97 :: 32 :: rest) p = n + 1 := by
    unfold scan_end scan_len
    rw [hd, ht, hk]
    simp only [List.isEmpty_cons, Bool.false_eq_true, if_false, List.length_singleton]
    omega
  have := fscanf_s_tok (List.replicate n (32 : Byte) ++ 97 :: 32 :: rest) p buffer
    (by rw [hd]; simp) (by rw [hd, hk]; decide)
  rw [hd, hk, hend] at this
  exact this

theorem token_loop_stop {σ : Type} (body : List Byte → σ → Except Fault (Flow σ)) (region : Int)
    (fuel : Nat) (fp : FILE) (buffer : List Byte) (s : σ) (owned : List Nat)
    (h : region < ftell fp) :
    token_loop body region (fuel + 1) fp buffer s owned = .ok (fp, buffer, s, owned) := by
  simp only [token_loop, not_le.mpr h, if_false]

/-- The worker `count_words` of thread 0 on a file that is `n` spaces followed by the
token `a` and more, when its `region` ends inside the spaces: it counts `a` and stops. -/
theorem count_words_first (n : Nat) (rest : List Byte) (t : thread_args)
    (hfp : t.fp = { content := List.replicate n (32 : Byte) ++ 97 :: 32 :: rest, pos := 0 })
    (hnum : t.thread_num = 0) (hs : t.start_pos = 0) (hr0 : 0 ≤ t.region)
    (hr1 : t.region < (n : Int) + 1) :
    ∃ u, count_words t = .ok u ∧ u.word_count = t.word_count + 1 := by
  have hfs := fscanf_s_spaces n 0 rest t.buffer (Nat.zero_le _)
  have hstop : t.region < ftell
      { content := List.replicate n (32 : Byte) ++ 97 :: 32 :: rest, pos := n + 1 } := by
    simp only [ftell]
    push_cast
    exact hr1
  have hgo : ftell { content := List.replicate n (32 : Byte) ++ 97 :: 32 :: rest, pos := 0 }
      ≤ t.region := by
    simp only [ftell]
    exact_mod_cast hr0
  have hlen : (List.replicate n (32 : Byte) ++ 97 :: 32 :: rest).length + 1
      = (n + rest.length + 1) + 1 + 1 := by
    simp only [List.length_append, List.length_replicate, List.length_cons]
    omega
  unfold count_words hand_off
  rw [hnum, hfp, hs]
  simp only [ne_eq, not_true_eq_false, if_false, fseek, lt_self_iff_false, Int.toNat_zero,
    loop_fuel, hlen]
  rw [token_loop]
  simp only [hgo, if_true, hfs, EOF]
  rw [token_loop_stop _ _ _ _ _ _ _ hstop]
  exact ⟨_, rfl, rfl⟩

/-- The worker `count_words` of another thread on the same file, when its `start_pos`
lies inside the spaces and its `region` ends inside them (or is negative): the hand-off
read consumes `a`, and the loop does not run. -/
theorem count_words_late (n : Nat) (rest : List Byte) (t : thread_args)
    (hfp : t.fp = { content := List.replicate n (32 : Byte) ++ 97 :: 32 :: rest, pos := 0 })
    (hnum : t.thread_num ≠ 0) (hs0 : 0 ≤ t.start_pos) (hs1 : t.start_pos ≤ (n : Int))
    (hr1 : t.region < (n : Int) + 1) :
    ∃ u, count_words t = .ok u ∧ u.word_count = t.word_count := by
  have hp : t.start_pos.toNat ≤ n := by omega
  have hfs := fscanf_s_spaces n t.start_pos.toNat rest t.buffer hp
  have hstop : t.region < ftell
      { content := List.replicate n (32 : Byte) ++ 97 :: 32 :: rest, pos := n + 1 } := by
    simp only [ftell]
    push_cast
    exact hr1
  have hneg : ¬ t.start_pos < 0 := by omega
  unfold count_words hand_off
  rw [hfp]
  simp only [ne_eq, hnum, not_false_eq_true, if_true, fseek, hneg, if_false, hfs, loop_fuel]
  rw [token_loop_stop _ _ _ _ _ _ _ hstop]
  exact ⟨_, rfl, rfl⟩

theorem length_big_file : big_file.length = 715827883 := by
  unfold big_file
  rw [List.length_append, List.length_replicate]
  rfl

theorem file_size_big_file : file_size big_file = 715827883 := by
  unfold file_size
  rw [length_big_file]
  decide

theorem tokens_big_file : tokens big_file = [[97], [98], [99]] := by
  unfold tokens big_file
  rw [tokens_at_spaces]
  refine tokens_flatMap [[97], [98], [99]] ?_ _
  intro t ht
  simp only [List.mem_cons, List.mem_singleton, List.not_mem_nil, or_false] at ht
  have hb : ∀ c : Byte, isspace c = false → [c] ≠ [] ∧ ∀ b ∈ [c], isspace b = false := by
    intro c hc
    refine ⟨List.cons_ne_nil _ _, ?_⟩
    intro b hb
    rw [List.mem_singleton.mp hb]
    exact hc
  rcases ht with h | h | h <;> subst h <;> exact hb _ (by decide)

theorem init_thread_big_file (k : Nat) :
    (init_thread big_file k).fp
      = { content := List.replicate 715827877 (32 : Byte) ++ 97 :: 32 :: [98, 32, 99, 32],
          pos := 0 } ∧
    (init_thread big_file k).thread_num = k ∧
    (init_thread big_file k).start_pos = start_pos_of 715827883 k ∧
    (init_thread big_file k).region = region_of 715827883 k ∧
    (init_thread big_file k).word_count = 0 := by
  refine ⟨rfl, rfl, ?_, ?_, rfl⟩
  · simp only [init_thread, file_size_big_file]
  · simp only [init_thread, file_size_big_file]

/-- Word mode when the three workers return: the sum that `main` prints. -/
theorem main_words_of_workers (content : List Byte) (u0 u1 u2 : thread_args)
    (h0 : count_words (init_thread content 0) = .ok u0)
    (h1 : count_words (init_thread content 1) = .ok u1)
    (h2 : count_words (init_thread content 2) = .ok u2) :
    main_words content = .ok (u0.word_count + u1.word_count + u2.word_count) := by
  unfold main_words
  rw [init_thread_args_eq, run_workers_three count_words _ _ _ u0 u1 u2 h0 h1 h2]
  simp only [List.map_cons, List.map_nil, List.sum_cons, List.sum_nil, Nat.add_zero,
    Nat.add_assoc]

/-- Word mode on `big_file`: worker 0 counts `a`; the hand-off reads of workers 1 and 2
consume `a` again; the loop of worker 1 does not run because its stream is behind its
`region`, and the loop of worker 2 does not run because its `region` is negative.  The
tokens `b` and `c` are counted by nobody. -/
theorem main_words_big_file : main_words big_file = .ok 1 := by
  obtain ⟨f0, n0, s0, r0, w0⟩ := init_thread_big_file 0
  obtain ⟨f1, n1, s1, r1, w1⟩ := init_thread_big_file 1
  obtain ⟨f2, n2, s2, r2, w2⟩ := init_thread_big_file 2
  obtain ⟨u0, h0, c0⟩ := count_words_first 715827877 [98, 32, 99, 32] (init_thread big_file 0)
    f0 n0 (by rw [s0]; decide) (by rw [r0]; decide) (by rw [r0]; decide)
  obtain ⟨u1, h1, c1⟩ := count_words_late 715827877 [98, 32, 99, 32] (init_thread big_file 1)
    f1 (by rw [n1]; decide) (by rw [s1]; decide) (by rw [s1]; decide) (by rw [r1]; decide)
  obtain ⟨u2, h2, c2⟩ := count_words_late 715827877 [98, 32, 99, 32] (init_thread big_file 2)
    f2 (by rw [n2]; decide) (by rw [s2]; decide) (by rw [s2]; decide) (by rw [r2]; decide)
  have h := main_words_of_workers big_file u0 u1 u2 h0 h1 h2
  rw [c0, c1, c2, w0, w1, w2] at h
  exact h

/-! ## The record step at the capacity of the table -/

theorem cap_token_absent (n : Nat) (hn : n < MAX_UNIQ_WORDS + 1) :
    cap_token n ∉ (List.range n).map cap_token := by
  intro h
  obtain ⟨i, hi, e⟩ := List.mem_map.mp h
  have hi' := List.mem_range.mp hi
  have := cap_token_inj i n (by omega) hn e
  omega

/-- Recording a new C string in the last free slot of the table succeeds; recording it a
second time walks over the full table and reads `uniq_wlist.words[MAX_UNIQ_WORDS]`. -/
theorem record_twice_last_slot :
    ∃ g1 : Shared,
      record (cap_token (MAX_UNIQ_WORDS - 1)) (cap_table (MAX_UNIQ_WORDS - 1), false)
        = .ok (.next (g1, false)) ∧
      record (cap_token (MAX_UNIQ_WORDS - 1)) (g1, false) = .error .out_of_bounds := by
  have hle : MAX_UNIQ_WORDS - 1 ≤ MAX_UNIQ_WORDS + 1 := by omega
  have hlt : MAX_UNIQ_WORDS - 1 < MAX_UNIQ_WORDS + 1 := by omega
  have hok := cap_tokens_c_token (MAX_UNIQ_WORDS - 1) hle
  have hlen : ((List.range (MAX_UNIQ_WORDS - 1)).map cap_token).length = MAX_UNIQ_WORDS - 1 := by
    rw [List.length_map, List.length_range]
  have hw := cap_token_c_token (MAX_UNIQ_WORDS - 1) hlt
  obtain ⟨g1, h1, h2, _, h4⟩ := record_eq (cap_token (MAX_UNIQ_WORDS - 1)) _ hok
    (by rw [hlen]; unfold MAX_UNIQ_WORDS; omega) (cap_table (MAX_UNIQ_WORDS - 1))
    (table_holds_cap_table _) rfl
  rw [c_str_of_c_token _ hw] at h4
  obtain ⟨hw1, _⟩ := h4 (cap_token_absent _ hlt)
  refine ⟨g1, h1, ?_⟩
  apply record_full _ ((List.range (MAX_UNIQ_WORDS - 1)).map cap_token
    ++ [cap_token (MAX_UNIQ_WORDS - 1)]) _ _ g1
    (table_holds_append _ _ _ _ (table_holds_cap_table _) hw1) h2
  · intro c hc
    rcases List.mem_append.mp hc with hc | hc
    · exact hok c hc
    · rw [List.mem_singleton.mp hc]; exact hw
  · rw [List.length_append, hlen]
    unfold MAX_UNIQ_WORDS
    rfl

set_option maxRecDepth 4000 in
theorem main_lines_eq_witness :
    (true = true → ∀ b ∈ ([97, 10, 10, 98, 10, 99, 100] : List Byte), b ≠ 255) ∧
    3 * (([97, 10, 10, 98, 10, 99, 100] : List Byte).length : Int) ≤ INT_MAX ∧
    main_lines true [97, 10, 10, 98, 10, 99, 100]
      = .ok (newline_count [97, 10, 10, 98, 10, 99, 100]) :=
  ⟨by decide, by decide, main_lines_eq true _ (by decide) (by decide)⟩

theorem start_pos_of_eq_floor_witness :
    (0 : Int) ≤ 10 ∧ ((2 : Nat) : Int) * 10 ≤ INT_MAX ∧
    start_pos_of 10 2 = Int.floor (((((2 : Nat) : Int) * 10 : Int) : ℚ) / ((3 : Nat) : ℚ)) :=
  ⟨by decide, by decide, start_pos_of_eq_floor 10 2 (by decide) (by decide)⟩

/-! ## The claims -/

/-- C1, amended: for every file content whose tokens are at most 255 bytes long and whose
size satisfies `NUM_THREADS * size ≤ INT_MAX`, the total that `main` prints in word mode,
the sum of `word_count` over the three workers, is the number of tokens of the file;
a token that straddles region boundaries is counted once. -/
theorem C1_word_total (content : List Byte) (hfit : fits_buffer content)
    (hsz : 3 * (content.length : Int) ≤ INT_MAX) :
    main_words content = .ok (tokens content).length :=
  main_words_eq content hfit hsz

theorem C1_word_total_witness :
    fits_buffer [97, 98, 99, 100, 101, 102, 103, 32, 104] ∧
    3 * (([97, 98, 99, 100, 101, 102, 103, 32, 104] : List Byte).length : Int) ≤ INT_MAX ∧
    main_words [97, 98, 99, 100, 101, 102, 103, 32, 104]
      = .ok (tokens [97, 98, 99, 100, 101, 102, 103, 32, 104]).length :=
  ⟨by decide, by decide, C1_word_total _ (by decide) (by decide)⟩

/-- C1 as stated fails.  `big_file`, 715827883 bytes, has the three tokens `a`, `b`, `c`
behind its leading spaces, but `3 * size` is not an `int`: the `region` of the last worker
is negative, its loop does not run, and `main` prints `1`.  And a file that is one token
of 1000 bytes has one token, but the first `%s` conversion stores 1001 bytes in the
256-byte `buffer`: no total is produced. -/
theorem C1_counterexample :
    big_file.length = 715827883 ∧ fits_buffer big_file ∧ (tokens big_file).length = 3 ∧
    main_words big_file = .ok 1 ∧
    (tokens (List.replicate 1000 (97 : Byte))).length = 1 ∧
    main_words (List.replicate 1000 (97 : Byte)) = .error .buffer_overrun := by
  refine ⟨length_big_file, ?_, ?_, main_words_big_file,
    main_words_replicate 1000 (by decide) (by decide)⟩
  · intro t ht
    rw [tokens_big_file] at ht
    simp only [List.mem_cons, List.mem_singleton, List.not_mem_nil, or_false] at ht
    rcases ht with h | h | h <;> subst h <;> decide
  · rw [tokens_big_file]
    rfl

/-- C2, the code at the failing input: the six-byte file `0xFF '\n' a a a a` holds one
newline byte, but on a platform whose plain `char` is signed line mode reports `0`: worker 0
stores the byte `0xFF` in a `char`, finds it equal to `EOF` and leaves its loop in front of
the newline.  With an unsigned plain `char` the same run reports `1`. -/
theorem C2_stops_at_0xFF :
    newline_count [255, 10, 97, 97, 97, 97] = 1 ∧
    main_lines true [255, 10, 97, 97, 97, 97] = .ok 0 ∧
    main_lines false [255, 10, 97, 97, 97, 97] = .ok 1 := by
  decide

/-- C3, amended: for every file content without NUL bytes, whose tokens are at most 255
bytes long, whose size satisfies `NUM_THREADS * size ≤ INT_MAX` and which has fewer than
`MAX_UNIQ_WORDS` distinct tokens, when the bodies of the three workers run to completion
one after another, in any order, on the freshly initialised table, the table holds every
distinct token of the file in exactly one slot and the number `main` reports is the
number of distinct tokens. -/
theorem C3_unique_total (content : List Byte) (order : List Nat)
    (horder : order.Perm [0, 1, 2]) (hnul : (0 : Byte) ∉ content)
    (hfit : fits_buffer content) (hsz : 3 * (content.length : Int) ≤ INT_MAX)
    (hcap : distinct_tokens content < MAX_UNIQ_WORDS) :
    (∃ (g : Shared) (ws : List (List Byte)),
      run_unique content order init_shared = .ok g ∧
      table_holds g.uniq_wlist ws ∧ ws.Nodup ∧ (∀ c, c ∈ ws ↔ c ∈ tokens content)) ∧
    main_unique order content = .ok (distinct_tokens content) := by
  obtain ⟨g, ws, h1, h2, h3, h4, _, _, _, h8⟩ :=
    main_unique_eq content hfit hsz hnul hcap order horder
  exact ⟨⟨g, ws, h1, h2, h3, h4⟩, h8⟩

theorem C3_unique_total_witness :
    List.Perm [2, 0, 1] [0, 1, 2] ∧ (0 : Byte) ∉ ([97, 32, 98, 98, 32, 97, 10] : List Byte) ∧
    fits_buffer [97, 32, 98, 98, 32, 97, 10] ∧
    3 * (([97, 32, 98, 98, 32, 97, 10] : List Byte).length : Int) ≤ INT_MAX ∧
    distinct_tokens [97, 32, 98, 98, 32, 97, 10] < MAX_UNIQ_WORDS ∧
    ((∃ (g : Shared) (ws : List (List Byte)),
      run_unique [97, 32, 98, 98, 32, 97, 10] [2, 0, 1] init_shared = .ok g ∧
      table_holds g.uniq_wlist ws ∧ ws.Nodup ∧
      (∀ c, c ∈ ws ↔ c ∈ tokens [97, 32, 98, 98, 32, 97, 10])) ∧
    main_unique [2, 0, 1] [97, 32, 98, 98, 32, 97, 10]
      = .ok (distinct_tokens [97, 32, 98, 98, 32, 97, 10])) :=
  ⟨by decide, by decide, by decide, by decide, by decide,
    C3_unique_total _ _ (by decide) (by decide) (by decide) (by decide) (by decide)⟩

/-- C3 as stated fails: the five-byte file `NUL a ' ' NUL b` has the two distinct tokens
`NUL a` and `NUL b`, far fewer than `MAX_UNIQ_WORDS`, but both are the empty C string to
`strcmp` and `strlen`, and `main` reports `1`. -/
theorem C3_counterexample :
    distinct_tokens [0, 97, 32, 0, 98] = 2 ∧
    distinct_tokens [0, 97, 32, 0, 98] ≤ MAX_UNIQ_WORDS ∧
    main_unique [0, 1, 2] [0, 97, 32, 0, 98] = .ok 1 := by
  decide

/-- C4, amended: for every file size with `0 ≤ size` and `NUM_THREADS * size ≤ INT_MAX`
the regions of `init_thread_args` are ordered and contiguous: the first `start_pos` is `0`,
every other `start_pos` is the `region` of the worker before it, `start_pos ≤ region` for
every worker, and the last `region` is the file size. -/
theorem C4_regions_contiguous (size : Int) (h0 : 0 ≤ size) (h1 : 3 * size ≤ INT_MAX) :
    start_pos_of size 0 = 0 ∧
    (∀ i, i + 1 < NUM_THREADS → start_pos_of size (i + 1) = region_of size i) ∧
    (∀ i, i < NUM_THREADS → start_pos_of size i ≤ region_of size i) ∧
    region_of size (NUM_THREADS - 1) = size := by
  refine ⟨start_pos_of_zero size, ?_, ?_, ?_⟩
  · intro i _
    exact (region_of_eq_start_pos_of size i).symm
  · intro i hi
    rw [region_of_eq_start_pos_of]
    unfold NUM_THREADS at hi
    apply start_pos_of_mono size i (i + 1) h0 (by omega)
    have : ((i + 1 : Nat) : Int) * size ≤ 3 * size :=
      mul_le_mul_of_nonneg_right (by exact_mod_cast (by omega : i + 1 ≤ 3)) h0
    omega
  · rw [region_of_eq_start_pos_of]
    exact start_pos_of_three size h0 h1

theorem C4_regions_contiguous_witness :
    (0 : Int) ≤ 27 ∧ 3 * (27 : Int) ≤ INT_MAX ∧
    (start_pos_of 27 0 = 0 ∧
      (∀ i, i + 1 < NUM_THREADS → start_pos_of 27 (i + 1) = region_of 27 i) ∧
      (∀ i, i < NUM_THREADS → start_pos_of 27 i ≤ region_of 27 i) ∧
      region_of 27 (NUM_THREADS - 1) = 27) :=
  ⟨by decide, by decide, C4_regions_contiguous 27 (by decide) (by decide)⟩

/-- C4 as stated fails: the size 715827883 is a non-negative `int`, but `3 * size`
overflows; the last `region` is then `-715827882`, not the size, and it lies below the last
`start_pos`. -/
theorem C4_counterexample :
    (0 : Int) ≤ 715827883 ∧ (715827883 : Int) ≤ INT_MAX ∧
    region_of 715827883 (NUM_THREADS - 1) = -715827882 ∧
    region_of 715827883 (NUM_THREADS - 1) ≠ 715827883 ∧
    ¬ (start_pos_of 715827883 2 ≤ region_of 715827883 2) := by
  decide

/-- C5, the code at the failing input: for a one-byte file the ceiling of `1 * size / 3`
is `1`, but worker 1 gets `start_pos = 0` and worker 0 gets `region = 0`: the integer
division has truncated before `ceil` is applied. -/
theorem C5_truncates_before_ceil :
    start_pos_of 1 1 = 0 ∧ region_of 1 0 = 0 ∧
    Int.ceil ((((1 : Int) * 1 : Int) : ℚ) / ((NUM_THREADS : Nat) : ℚ)) = 1 := by
  refine ⟨by decide, by decide, ?_⟩
  rw [Int.ceil_eq_iff]
  unfold NUM_THREADS
  norm_num

/-- C7, the code at and beyond the capacity.  For every file content of C-string tokens
(no NUL byte, tokens of at most 255 bytes, `NUM_THREADS * size ≤ INT_MAX`) with at least
`MAX_UNIQ_WORDS` distinct tokens, the sequential unique-word run, in whichever order the
workers run, produces neither a count nor an overflow outcome: it ends with an access
outside the arrays of `uniq_wlist`, when the scan of `unique_word_count` walks over the
full table and reads `uniq_wlist.words[MAX_UNIQ_WORDS]`, or when the counting loop of
`main` reads `uniq_wlist.ind_word_count[MAX_UNIQ_WORDS]`.  The only capacity handling of
the code, the `return` under `if (i > MAX_UNIQ_WORDS)`, is never executed by the body of
the loop, in any state. -/
theorem C7_capacity_fault (content : List Byte) (order : List Nat)
    (horder : order.Perm [0, 1, 2]) (hnul : (0 : Byte) ∉ content)
    (hfit : fits_buffer content) (hsz : 3 * (content.length : Int) ≤ INT_MAX)
    (hcap : MAX_UNIQ_WORDS ≤ distinct_tokens content) :
    main_unique order content = .error .out_of_bounds ∧
    ∀ (w : List Byte) (s r : Shared × Bool), record w s ≠ .ok (.ret r) :=
  ⟨main_unique_full content hfit hsz hnul hcap order horder, record_never_ret⟩

theorem C7_capacity_fault_witness :
    List.Perm [0, 1, 2] [0, 1, 2] ∧ (0 : Byte) ∉ cap_file ∧ fits_buffer cap_file ∧
    3 * (cap_file.length : Int) ≤ INT_MAX ∧ MAX_UNIQ_WORDS < distinct_tokens cap_file ∧
    (main_unique [0, 1, 2] cap_file = .error .out_of_bounds ∧
      ∀ (w : List Byte) (s r : Shared × Bool), record w s ≠ .ok (.ret r)) :=
  ⟨List.Perm.refl _, no_nul_cap_file, fits_buffer_cap_file, size_cap_file,
    by rw [distinct_tokens_cap_file]; omega,
    C7_capacity_fault cap_file [0, 1, 2] (List.Perm.refl _) no_nul_cap_file
      fits_buffer_cap_file size_cap_file (by rw [distinct_tokens_cap_file]; omega)⟩

/-- C8, amended: the record step of `unique_word_count` (the scan, then the
insert-or-increment), run without interference on a table that holds pairwise distinct C
strings `ws` in its first slots and has a free slot, for a token `w` that is a C string
(not empty, no NUL byte).  If `w` is stored, the stored strings stay as they are, the count
of the slot of `w` grows by exactly one and every other count is unchanged; if `w` is
absent, exactly one entry, `w` with count `1`, is appended and every other count is
unchanged.  When `w` is stored already or the table has two free slots, recording `w`
twice leaves the same stored strings as recording it once. -/
theorem C8_record_step (g : Shared) (ws : List (List Byte)) (w : List Byte)
    (hm : g.mutex_var = false) (hh : table_holds g.uniq_wlist ws) (hnd : ws.Nodup)
    (hok : ∀ c ∈ ws, c_token c) (hfree : ws.length < MAX_UNIQ_WORDS) (hw : c_token w) :
    ∃ g1 : Shared, record w (g, false) = .ok (.next (g1, false)) ∧
      (w ∈ ws →
        table_holds g1.uniq_wlist ws ∧
        ∀ j, (j < ws.length ∧ ws.getD j [] = w →
            g1.uniq_wlist.ind_word_count j = g.uniq_wlist.ind_word_count j + 1) ∧
          (¬ (j < ws.length ∧ ws.getD j [] = w) →
            g1.uniq_wlist.ind_word_count j = g.uniq_wlist.ind_word_count j)) ∧
      (w ∉ ws →
        table_holds g1.uniq_wlist (ws ++ [w]) ∧
        g1.uniq_wlist.ind_word_count ws.length = 1 ∧
        ∀ j, j ≠ ws.length →
          g1.uniq_wlist.ind_word_count j = g.uniq_wlist.ind_word_count j) ∧
      (w ∈ ws ∨ ws.length + 1 < MAX_UNIQ_WORDS →
        ∃ (g2 : Shared) (ws1 : List (List Byte)),
          record w (g1, false) = .ok (.next (g2, false)) ∧
          table_holds g1.uniq_wlist ws1 ∧ table_holds g2.uniq_wlist ws1 ∧ ws1.Nodup ∧
          (∀ c, c ∈ ws1 ↔ c ∈ ws ∨ c = w)) := by
  obtain ⟨g1, h1, h2, h3, h4⟩ := record_eq w ws hok hfree g hh hm
  have hcs := c_str_of_c_token w hw
  rw [hcs] at h3 h4
  have hA : w ∈ ws → table_holds g1.uniq_wlist ws := by
    intro hmem i hi
    rw [(h3 hmem).1]
    exact hh i hi
  have hB : w ∉ ws → table_holds g1.uniq_wlist (ws ++ [w]) := fun hmem =>
    table_holds_append g.uniq_wlist g1.uniq_wlist ws w hh (h4 hmem).1
  refine ⟨g1, h1, ?_, ?_, ?_⟩
  · intro hmem
    refine ⟨hA hmem, ?_⟩
    intro j
    constructor
    · intro hj
      rw [(h3 hmem).2 j, if_pos hj]
    · intro hj
      rw [(h3 hmem).2 j, if_neg hj, Int.add_zero]
  · intro hmem
    refine ⟨hB hmem, ?_, ?_⟩
    · rw [(h4 hmem).2, Function.update_same]
    · intro j hj
      rw [(h4 hmem).2, Function.update_noteq hj]
  · intro hcase
    by_cases hmem : w ∈ ws
    · obtain ⟨g2, k1, _, k3, _⟩ := record_eq w ws hok hfree g1 (hA hmem) h2
      rw [hcs] at k3
      refine ⟨g2, ws, k1, hA hmem, ?_, hnd, ?_⟩
      · intro i hi
        rw [(k3 hmem).1]
        exact hA hmem i hi
      · intro c
        constructor
        · intro h; exact Or.inl h
        · rintro (h | h)
          · exact h
          · rw [h]; exact hmem
    · have hfree2 : (ws ++ [w]).length < MAX_UNIQ_WORDS := by
        rcases hcase with h | h
        · exact absurd h hmem
        · simpa using h
      have hok2 : ∀ c ∈ ws ++ [w], c_token c := by
        intro c hc
        rcases List.mem_append.mp hc with hc | hc
        · exact hok c hc
        · rw [List.mem_singleton.mp hc]; exact hw
      have hmem2 : w ∈ ws ++ [w] := by simp
      obtain ⟨g2, k1, _, k3, _⟩ := record_eq w (ws ++ [w]) hok2 hfree2 g1 (hB hmem) h2
      rw [hcs] at k3
      refine ⟨g2, ws ++ [w], k1, hB hmem, ?_, ?_, ?_⟩
      · intro i hi
        rw [(k3 hmem2).1]
        exact hB hmem i hi
      · rw [List.nodup_append]
        refine ⟨hnd, List.nodup_singleton w, ?_⟩
        intro x hx hx2
        rw [List.mem_singleton] at hx2
        exact hmem (hx2 ▸ hx)
      · intro c
        simp only [List.mem_append, List.mem_singleton]

theorem C8_record_step_witness :
    ∃ g1 : Shared,
      record [97] ({ uniq_wlist := { words := fun i => if i = 0 then [97] else [],
                                     ind_word_count := fun i => if i = 0 then 5 else -1 },
                     mutex_var := false }, false) = .ok (.next (g1, false)) ∧
      g1.uniq_wlist.ind_word_count 0 = 6 :=
  let g : Shared :=
    { uniq_wlist := { words := fun i => if i = 0 then [97] else [],
                      ind_word_count := fun i => if i = 0 then 5 else -1 },
      mutex_var := false }
  have h := C8_record_step g [[97]] [97] rfl
    (fun i _ => by cases i <;> rfl) (by decide) (by decide) (by decide) (by decide)
  let ⟨g1, h1, h2, _, _⟩ := h
  ⟨g1, h1, by
    have := ((h2 (by decide)).2 0).1 ⟨by decide, by decide⟩
    rw [this]
    rfl⟩

/-- C8 as stated fails: on the table that holds `a` with count `5` in slot 0 and has all
other slots free, the token `a NUL b` is absent, but the record step appends nothing and
raises the count of `a` to `6`: `strcmp` compares C strings, and the C string of the
token is `a`. -/
theorem C8_counterexample :
    ([97, 0, 98] : List Byte) ∉ [([97] : List Byte)] ∧
    ∃ g1 : Shared,
      record [97, 0, 98]
          ({ uniq_wlist := { words := fun i => if i = 0 then [97] else [],
                             ind_word_count := fun i => if i = 0 then 5 else -1 },
             mutex_var := false }, false) = .ok (.next (g1, false)) ∧
      g1.uniq_wlist.words 0 = [97] ∧ g1.uniq_wlist.words 1 = [] ∧
      g1.uniq_wlist.ind_word_count 0 = 6 ∧ g1.uniq_wlist.ind_word_count 1 = -1 :=
  ⟨by decide, _, rfl, rfl, rfl, rfl, rfl⟩

/-- C9: on the 27-byte file `the quick fox the lazy fox\n`, with the three workers of
the program, word mode yields 6, line mode yields 1 (whether plain `char` is signed or
not), and unique-word mode yields 4, in whichever order the workers run one after
another. -/
theorem C9_scenario :
    ([116, 104, 101, 32, 113, 117, 105, 99, 107, 32, 102, 111, 120, 32, 116, 104, 101, 32,
      108, 97, 122, 121, 32, 102, 111, 120, 10] : List Byte).length = 27 ∧
    main_words [116, 104, 101, 32, 113, 117, 105, 99, 107, 32, 102, 111, 120, 32, 116, 104,
      101, 32, 108, 97, 122, 121, 32, 102, 111, 120, 10] = .ok 6 ∧
    (∀ signed_char : Bool,
      main_lines signed_char [116, 104, 101, 32, 113, 117, 105, 99, 107, 32, 102, 111, 120,
        32, 116, 104, 101, 32, 108, 97, 122, 121, 32, 102, 111, 120, 10] = .ok 1) ∧
    (∀ order ∈ [[0, 1, 2], [0, 2, 1], [1, 0, 2], [1, 2, 0], [2, 0, 1], [2, 1, 0]],
      main_unique order [116, 104, 101, 32, 113, 117, 105, 99, 107, 32, 102, 111, 120, 32,
        116, 104, 101, 32, 108, 97, 122, 121, 32, 102, 111, 120, 10] = .ok 4) := by
  decide

/-- C10, the code at a failing interleaving.  The scan of `unique_word_count` runs
outside the mutex, so a worker can scan, be overtaken, and then insert at a slot that is
no longer free.  On the file `x y z y` the steps `0,0,0,1,1,2,2,0` leave the token `y` in
two slots (and `z` in none); on the file `a b c` the steps `0,1,0,1,0,0` make `main`
report `2`, while every sequential run reports `3`.  Run worker after worker, the step
model agrees with the sequential run. -/
theorem C10_lost_update :
    interleaved_unique [0, 0, 0, 1, 1, 2, 2, 0] [120, 32, 121, 32, 122, 32, 121]
      = .ok ([[120], [121], [121]], 3) ∧
    interleaved_unique [0, 0, 0, 0, 1, 1, 2, 2] [120, 32, 121, 32, 122, 32, 121]
      = .ok ([[120], [121], [122]], 3) ∧
    main_unique [0, 1, 2] [120, 32, 121, 32, 122, 32, 121] = .ok 3 ∧
    interleaved_unique [0, 1, 0, 1, 0, 0] [97, 32, 98, 32, 99] = .ok ([[99], [98], []], 2) ∧
    interleaved_unique [0, 0, 0, 0, 1, 1] [97, 32, 98, 32, 99] = .ok ([[97], [98], [99]], 3) ∧
    (∀ order ∈ [[0, 1, 2], [0, 2, 1], [1, 0, 2], [1, 2, 0], [2, 0, 1], [2, 1, 0]],
      main_unique order [97, 32, 98, 32, 99] = .ok 3) := by
  decide

end MyWc
